import Mathlib

/-!
Verification of the parse-vevox ingestion and board-reconciliation core.

The definitions below are a shallow embedding of the JavaScript source:
`src/index.js` (the record extractor `parseQAMessages`) and the kanban
data hook (`sortByLikes`, `sortAllColumnsByLikes`, `moveCard`,
`updateCategoryForIds`, `addMessages`, `loadData`).

Modelling conventions:
  - JavaScript numbers used as like counts are modelled as `Int`
    (all arithmetic involved is integer arithmetic);
  - a possibly-missing / non-numeric field is an `Option`;
  - an array element that may be `undefined` is a `JItem`
    (`JItem.undef` models `undefined`, `JItem.obj r` a record object);
  - a JavaScript object used as a string-keyed map is an association
    list `List (String × _)` in insertion order, matching the iteration
    order of `Object.keys` / `Object.values`;
  - `Array.prototype.sort` with comparator `(a, b) => keyB - keyA` is
    modelled by `stableSortDesc`, an insertion sort that is stable and
    sorts descending by the key, which is exactly the observable
    behaviour the ECMAScript specification guarantees for `sort`;
  - a code path on which the JavaScript would throw a `TypeError`
    (reading a property of `undefined`, or indexing a missing column)
    is modelled by returning `none`.
-/

namespace ParseVevox

/-- One message record held by the board (the objects stored in a
column's `items`).  `likes = none` models a missing / `null` /
non-numeric `likes` field; `sentiment = none` models an absent or
`undefined` sentiment. -/
structure MessageRecord where
  id : Int
  timestamp : String
  text : String
  likes : Option Int
  sentiment : Option String
deriving DecidableEq, Repr

/-- An element of a column's `items` array: either a record object or
the JavaScript value `undefined`. -/
inductive JItem where
  | undef : JItem
  | obj : MessageRecord → JItem
deriving DecidableEq, Repr

/-- Whether the element is the JavaScript value `undefined`. -/
def JItem.isUndef : JItem → Bool
  | .undef => true
  | .obj _ => false

/-- The like count the comparator in `sortByLikes` computes for an
element it receives: `typeof a?.likes === 'number' ? a.likes : 0`.
ECMAScript's SortCompare never passes an `undefined` element to the
comparator — it orders those after all defined elements — so the
`.undef` case below is a placeholder the sort itself never consults
(it is the key a `null` element would get, since `a?.likes` guards
the access). -/
def likesOf : JItem → Int
  | .undef => 0
  | .obj r => r.likes.getD 0

/-- Insertion step of the stable descending sort: the new element `x`
passes elements with a strictly larger key and stops in front of the
first element whose key is `≤` its own, so equal keys keep their
relative order. -/
def insertDescBy (key : α → Int) (x : α) : List α → List α
  | [] => [x]
  | y :: ys => if key x < key y then y :: insertDescBy key x ys else x :: y :: ys

/-- Stable descending sort by an integer key.  Models
`Array.prototype.sort((a, b) => key(b) - key(a))`, which ECMAScript
guarantees to be a stable sort producing exactly this order. -/
def stableSortDesc (key : α → Int) : List α → List α
  | [] => []
  | x :: xs => insertDescBy key x (stableSortDesc key xs)

/-- The hook's `sortByLikes` applied to an array argument (the
non-array guard `if (!Array.isArray(items)) return []` is outside this
function's domain: the model's argument is always a list).
`Array.prototype.sort`'s SortCompare moves every `undefined` element
after all defined elements without calling the comparator, and since
ES2019 sorts the defined elements stably by the comparator — here the
stable descending sort on the `likesOf` key. -/
def sortByLikes (items : List JItem) : List JItem :=
  stableSortDesc likesOf (items.filter (fun it => ! it.isUndef)) ++
    items.filter (fun it => it.isUndef)

/-- One column of the board: `{ id, title, items }`. -/
structure Column where
  id : String
  title : String
  items : List JItem
deriving DecidableEq, Repr

/-- The board's `columns` object: an association list in key insertion
order. -/
abbrev Columns := List (String × Column)

/-- Lookup of `columns[k]`. -/
def lookupCol (cols : Columns) (k : String) : Option Column :=
  (cols.find? (fun p => p.1 == k)).map Prod.snd

/-- The object spread `{ ...columns, [k]: v }`: an existing key keeps
its position and gets the new value, a new key is appended. -/
def setCol (cols : Columns) (k : String) (v : Column) : Columns :=
  if cols.any (fun p => p.1 == k) then
    cols.map (fun p => if p.1 == k then (k, v) else p)
  else
    cols ++ [(k, v)]

/-- Every item of every column, in `Object.values` (insertion) order. -/
def allItems (cols : Columns) : List JItem :=
  (cols.map (fun p => p.2.items)).flatten

/-- A column with its `items` re-sorted by likes. -/
def sortValue (c : Column) : Column :=
  { c with items := sortByLikes c.items }

/-- The hook's `sortAllColumnsByLikes`: each column's `items` is
re-sorted by likes; keys and key order are unchanged. -/
def sortAllColumnsByLikes (cols : Columns) : Columns :=
  cols.map (fun p => (p.1, sortValue p.2))

/-- One end of a drag: `{ droppableId, index }`. -/
structure DropPos where
  droppableId : String
  index : Nat
deriving DecidableEq, Repr

/-- The call `[removed] = arr.splice(i, 1)`: in bounds it removes and
returns the element; out of bounds it removes nothing and the
destructuring yields `undefined`. -/
def removeAt (l : List JItem) (i : Nat) : List JItem × JItem :=
  if h : i < l.length then (l.eraseIdx i, l.get ⟨i, h⟩) else (l, JItem.undef)

/-- The call `arr.splice(i, 0, x)`: insert `x` at position `i`, with
`i` clamped to the array length. -/
def spliceInsert (l : List α) (i : Nat) (x : α) : List α :=
  l.take i ++ x :: l.drop i

/-- The hook's `moveCard(source, destination)`.  When source and
destination columns coincide the two JavaScript array variables alias,
so the removal and the insertion act on one list; the object literal
then writes the same key twice and the sorted value wins. -/
def moveCard (cols : Columns) (source : DropPos) (destination : Option DropPos) :
    Columns :=
  match destination with
  | none => cols
  | some dst =>
    if source.droppableId = dst.droppableId ∧ source.index = dst.index then cols
    else
      match lookupCol cols source.droppableId, lookupCol cols dst.droppableId with
      | some sourceColumn, some destColumn =>
        let rm := removeAt sourceColumn.items source.index
        let base := if source.droppableId = dst.droppableId then rm.1
                    else destColumn.items
        let destItems := spliceInsert base dst.index rm.2
        setCol (setCol cols source.droppableId { sourceColumn with items := rm.1 })
          dst.droppableId { destColumn with items := sortByLikes destItems }
      | _, _ => cols

/-- One entry of a classification result: `{ category, sentiment }`,
either field possibly absent. -/
structure ClassEntry where
  category : Option String
  sentiment : Option String
deriving DecidableEq, Repr

/-- Projection of an item to its record; `none` on `undefined`, where
the JavaScript `item.id` would throw. -/
def toRecord : JItem → Option MessageRecord
  | .undef => none
  | .obj r => some r

/-- Record view of a whole item list; `none` as soon as one element is
`undefined` (the first property read on it throws). -/
def toRecords : List JItem → Option (List MessageRecord)
  | [] => some []
  | .undef :: _ => none
  | .obj r :: rest => (toRecords rest).map (fun rs => r :: rs)

/-- Whitespace in the sense of `String.prototype.trim` (space and the
common control whitespace; written at the character-list level so that
it evaluates inside the kernel, which the library's string functions do
not). -/
def isJsSpace (c : Char) : Bool :=
  c == ' ' || c == '\t' || c == '\n' || c == '\r' || c == '\x0b' || c == '\x0c'

/-- Model of `.trim()`: strip leading and trailing whitespace. -/
def jsTrim (s : String) : String :=
  ⟨((s.data.dropWhile isJsSpace).reverse.dropWhile isJsSpace).reverse⟩

/-- One character of `.toLowerCase()` (the ASCII range, which covers
every category name involved). -/
def jsLowerChar (c : Char) : Char :=
  if 65 ≤ c.toNat ∧ c.toNat ≤ 90 then Char.ofNat (c.toNat + 32) else c

/-- Model of `.toLowerCase()`. -/
def jsToLower (s : String) : String := ⟨s.data.map jsLowerChar⟩

/-- Target-column resolution of `updateCategoryForIds` for a record
that has a classification entry: `result.category` is lowercased when
truthy, defaulted to `uncategorized` otherwise, and kept only when the
board has a column under that key. -/
def resolveCat (cols : Columns) (e : ClassEntry) : String :=
  let assignedCat :=
    match e.category with
    | some c => if c = "" then "uncategorized" else jsToLower c
    | none => "uncategorized"
  if (lookupCol cols assignedCat).isSome then assignedCat else "uncategorized"

/-- Per-record step of `updateCategoryForIds`: with an entry, the
record's sentiment is overwritten by the entry's sentiment and the
target is the resolved category; without one, the record is untouched
and targeted at `uncategorized`. -/
def classifyItem (cols : Columns) (res : Int → Option ClassEntry)
    (r : MessageRecord) : MessageRecord × String :=
  match res r.id with
  | some e => ({ r with sentiment := e.sentiment }, resolveCat cols e)
  | none => (r, "uncategorized")

/-- The column stored under key `k` after the push loop of
`updateCategoryForIds`: its `items` are the classified records
targeted at `k`, in classified order (pushes append in iteration
order). -/
def fillValue (classified : List (MessageRecord × String)) (k : String) (c : Column) : Column :=
  { c with items := (classified.filter (fun q => q.2 == k)).map (fun q => JItem.obj q.1) }

/-- The push loop of `updateCategoryForIds` over the whole board. -/
def fillColumns (cols : Columns)
    (classified : List (MessageRecord × String)) : Columns :=
  cols.map (fun p => (p.1, fillValue classified p.1 p.2))

/-- The hook's `updateCategoryForIds(classificationResult)`: gather
every item of every column, clear all columns, push each record into
its resolved target column in gathered order, and re-sort every column
by likes.  Returns `none` on the paths where the JavaScript throws: an
`undefined` item (reading `item.id`), or a push into a target key the
board does not have. -/
def updateCategoryForIds (cols : Columns) (res : Int → Option ClassEntry) :
    Option Columns :=
  match toRecords (allItems cols) with
  | none => none
  | some recs =>
    let classified := recs.map (classifyItem cols res)
    if classified.all (fun q => (lookupCol cols q.2).isSome) then
      some (sortAllColumnsByLikes (fillColumns cols classified))
    else none

/-- In-memory state the hook keeps besides `columns`: the display
order, the raw ingestion log, and the log of payloads written to the
raw-data persistence key (`localStorage.setItem(RAW_DATA_KEY, ...)`). -/
structure AppState where
  columns : Columns
  columnOrder : List String
  rawData : List JItem
  rawWrites : List (List JItem)
deriving DecidableEq, Repr

/-- The hook's `addMessages(messages)`.  The argument is `none` for a
non-array value.  A non-array or empty argument returns before any
state or storage is touched.  Otherwise the batch is appended to the
raw log (and that log is written to the raw-data key) and merged into
`uncategorized`, which is then re-sorted by likes; `none` models the
throw on a board with no `uncategorized` key. -/
def addMessages (s : AppState) (messages : Option (List JItem)) :
    Option AppState :=
  match messages with
  | none => some s
  | some msgs =>
    if msgs.length = 0 then some s
    else
      match lookupCol s.columns "uncategorized" with
      | none => none
      | some uncat =>
        let newRawData := s.rawData ++ msgs
        some { s with
          rawData := newRawData
          rawWrites := s.rawWrites ++ [newRawData]
          columns := setCol s.columns "uncategorized"
            { uncat with items := sortByLikes (uncat.items ++ msgs) } }

/-- The default initial `columns` object of the hook. -/
def initialColumns : Columns :=
  [("uncategorized", ⟨"uncategorized", "Uncategorized", []⟩),
   ("ui_ux", ⟨"ui_ux", "UI/UX", []⟩),
   ("library", ⟨"library", "Library", []⟩),
   ("ai", ⟨"ai", "AI", []⟩),
   ("headless", ⟨"headless", "Headless UI", []⟩)]

/-- The default initial `columnOrder`. -/
def initialColumnOrder : List String :=
  ["uncategorized", "ui_ux", "library", "ai", "headless"]

/-- Persisted board blob `{ columns, columnOrder }` as parsed back from
storage; either field may be absent. -/
structure SavedBoard where
  columns : Option Columns
  columnOrder : Option (List String)

/-- The mount-time `loadData` effect, restricted to the board state it
produces: the `columns` and `columnOrder` after the effect ran.  A
`columnOrder` of `none` models the state variable having been set to
`undefined` by `setColumnOrder(parsed.columnOrder)` when the persisted
blob lacks that field.  With no persisted blob, or a blob with no
`columns`, the defaults stand.  With a `columns` object that has the
sentinel key `ui_ux`, the persisted shape is adopted (re-sorted).
Otherwise every persisted item of every persisted column is flattened
into the default board's `uncategorized`. -/
def loadData (saved : Option SavedBoard) : Columns × Option (List String) :=
  match saved with
  | none => (initialColumns, some initialColumnOrder)
  | some parsed =>
    match parsed.columns with
    | none => (initialColumns, some initialColumnOrder)
    | some pcols =>
      if (lookupCol pcols "ui_ux").isSome then
        (sortAllColumnsByLikes pcols, parsed.columnOrder)
      else
        let allPersisted := (pcols.map (fun p => p.2.items)).flatten
        (sortAllColumnsByLikes
          (setCol initialColumns "uncategorized"
            ⟨"uncategorized", "Uncategorized", allPersisted⟩),
         some initialColumnOrder)

/-- Raw per-card data the extractor reads out of one message-card node:
the text of the sent-time node, of the likes node, and of the
wrapping-text node (before trimming). -/
structure RawCard where
  sentTime : String
  likesText : String
  wrappingText : String
deriving DecidableEq, Repr

/-- One extracted message `{ id, timestamp, message, likes }`. -/
structure ExtractedMsg where
  id : Nat
  timestamp : String
  message : String
  likes : Nat
deriving DecidableEq, Repr

/-- Longest digit run at the head of the character list. -/
def takeDigits : List Char → List Char
  | [] => []
  | c :: cs => if c.isDigit then c :: takeDigits cs else []

/-- First maximal digit run in the character list, if any: the match
of the regular expression `\d+`. -/
def firstDigitRun : List Char → Option (List Char)
  | [] => none
  | c :: cs => if c.isDigit then some (c :: takeDigits cs) else firstDigitRun cs

/-- Decimal value of a digit run, as `parseInt(run, 10)` computes it. -/
def digitsToNat (ds : List Char) : Nat :=
  ds.foldl (fun acc c => 10 * acc + (c.toNat - 48)) 0

/-- The extractor's like-count parse: match `\d+` against the trimmed
likes text and `parseInt` the match, with 0 when there is no digit. -/
def parseLikes (likesText : String) : Nat :=
  match firstDigitRun (jsTrim likesText).data with
  | some ds => digitsToNat ds
  | none => 0

/-- Scan step for the card at (0-based) position `idx`: ids start out
as the running position + 1 and are reassigned later. -/
def scanCard (idx : Nat) (c : RawCard) : ExtractedMsg :=
  { id := idx + 1
    timestamp := jsTrim c.sentTime
    message := jsTrim c.wrappingText
    likes := parseLikes c.likesText }

/-- The value `parseQAMessages` returns. -/
structure ParseResult where
  totalMessages : Nat
  totalLikes : Nat
  messages : List ExtractedMsg
deriving DecidableEq, Repr

/-- The scan loop of `parseQAMessages`: one `ExtractedMsg` per card,
in DOM order, with running ids. -/
def scannedMessages (cards : List RawCard) : List ExtractedMsg :=
  cards.enum.map (fun p => scanCard p.1 p.2)

/-- The extractor's retention filter: keep a scanned message when its
message or its timestamp is a non-empty (truthy) string,
`msg.message || msg.timestamp`. -/
def retainedMessages (cards : List RawCard) : List ExtractedMsg :=
  (scannedMessages cards).filter
    (fun m => !(m.message == "") || !(m.timestamp == ""))

/-- The extractor's sort pass:
`filteredMessages.sort((a, b) => b.likes - a.likes)`. -/
def rankedMessages (cards : List RawCard) : List ExtractedMsg :=
  stableSortDesc (fun m => (m.likes : Int)) (retainedMessages cards)

/-- The extractor `parseQAMessages`, applied to the card data in DOM
order: scan each card, drop cards whose trimmed message and timestamp
are both empty, sort by likes descending (stable), reassign 1-based
ids in sorted order, and total up count and likes. -/
def parseQAMessages (cards : List RawCard) : ParseResult :=
  let final := (rankedMessages cards).enum.map (fun p => { p.2 with id := p.1 + 1 })
  { totalMessages := final.length
    totalLikes := (final.map (fun m => m.likes)).sum
    messages := final }

/-! Basic facts about the stable descending sort. -/

/-- Items sorted by key, descending. -/
def DescSortedBy (key : α → Int) (l : List α) : Prop :=
  l.Pairwise (fun a b => key b ≤ key a)

/-- All `undefined` entries of the list form a (possibly empty)
suffix: after the leading run of defined elements, nothing defined
remains. -/
def undefsLast (l : List JItem) : Bool :=
  (l.dropWhile (fun it => ! it.isUndef)).all (fun it => it.isUndef)

/-- A column's items in the order `sortByLikes` produces: the defined
elements in likes-descending comparator order, and every `undefined`
entry after all defined ones (where `Array.prototype.sort` puts
them). -/
def LikesSorted (l : List JItem) : Prop :=
  DescSortedBy likesOf (l.filter (fun it => ! it.isUndef)) ∧
    undefsLast l = true

theorem perm_insertDescBy (key : α → Int) (x : α) (l : List α) :
    (insertDescBy key x l).Perm (x :: l) := by
  induction l with
  | nil => simp [insertDescBy]
  | cons y ys ih =>
    by_cases h : key x < key y
    · simpa [insertDescBy, h] using (ih.cons y).trans (List.Perm.swap x y ys)
    · simp [insertDescBy, h]

theorem perm_stableSortDesc (key : α → Int) (l : List α) :
    (stableSortDesc key l).Perm l := by
  induction l with
  | nil => simp [stableSortDesc]
  | cons x xs ih =>
    exact (perm_insertDescBy key x (stableSortDesc key xs)).trans (ih.cons x)

theorem mem_insertDescBy {key : α → Int} {x z : α} {l : List α} :
    z ∈ insertDescBy key x l ↔ z = x ∨ z ∈ l := by
  rw [(perm_insertDescBy key x l).mem_iff]
  simp

theorem descSorted_insertDescBy {key : α → Int} {x : α} {l : List α}
    (h : DescSortedBy key l) : DescSortedBy key (insertDescBy key x l) := by
  induction l with
  | nil => simp [insertDescBy, DescSortedBy]
  | cons y ys ih =>
    rcases h with _ | ⟨hy, hys⟩
    by_cases hxy : key x < key y
    · show List.Pairwise _ (if key x < key y then _ else _)
      rw [if_pos hxy]
      refine List.Pairwise.cons ?_ (ih hys)
      intro z hz
      rcases mem_insertDescBy.mp hz with rfl | hz
      · exact le_of_lt hxy
      · exact hy z hz
    · show List.Pairwise _ (if key x < key y then _ else _)
      rw [if_neg hxy]
      refine List.Pairwise.cons ?_ (List.Pairwise.cons hy hys)
      intro z hz
      rcases List.mem_cons.mp hz with rfl | hz
      · exact le_of_not_lt hxy
      · exact le_trans (hy z hz) (le_of_not_lt hxy)

theorem descSorted_stableSortDesc (key : α → Int) (l : List α) :
    DescSortedBy key (stableSortDesc key l) := by
  induction l with
  | nil => simp [stableSortDesc, DescSortedBy]
  | cons x xs ih => exact descSorted_insertDescBy ih

/-- Stability of the insertion step: a filter that is constant-key
(only sees elements of a single key value) is unchanged by the
insertion, up to consing the new element in front. -/
theorem filter_insertDescBy {key : α → Int} (p : α → Bool)
    (hp : ∀ a b, p a = true → p b = true → key a = key b)
    (x : α) (l : List α) :
    (insertDescBy key x l).filter p = (x :: l).filter p := by
  induction l with
  | nil => simp [insertDescBy]
  | cons y ys ih =>
    by_cases hxy : key x < key y
    · simp only [insertDescBy, hxy, if_true]
      by_cases hpy : p y = true
      · by_cases hpx : p x = true
        · exact absurd (hp x y hpx hpy) (by omega)
        · simp [List.filter_cons, hpy, hpx, ih]
      · simp [List.filter_cons, hpy, ih]
    · simp [insertDescBy, hxy]

/-- Stability of the sort: a constant-key filter of the sorted list is
the same filter of the input list, in the same order. -/
theorem filter_stableSortDesc {key : α → Int} (p : α → Bool)
    (hp : ∀ a b, p a = true → p b = true → key a = key b)
    (l : List α) :
    (stableSortDesc key l).filter p = l.filter p := by
  induction l with
  | nil => rfl
  | cons x xs ih =>
    calc (insertDescBy key x (stableSortDesc key xs)).filter p
        = (x :: stableSortDesc key xs).filter p :=
          filter_insertDescBy p hp x _
      _ = (x :: xs).filter p := by
          by_cases hpx : p x = true <;> simp [List.filter_cons, hpx, ih]

theorem undefsLast_of_all {b : List JItem}
    (hb : ∀ x ∈ b, x.isUndef = true) : undefsLast b = true := by
  cases b with
  | nil => rfl
  | cons y ys =>
    have hy := hb y (List.mem_cons_self y ys)
    simp only [undefsLast, List.dropWhile_cons, hy, Bool.not_true,
      Bool.false_eq_true, if_false]
    exact List.all_eq_true.mpr hb

theorem undefsLast_append (a b : List JItem)
    (ha : ∀ x ∈ a, x.isUndef = false)
    (hb : ∀ x ∈ b, x.isUndef = true) : undefsLast (a ++ b) = true := by
  induction a with
  | nil => exact undefsLast_of_all hb
  | cons y ys ih =>
    have hy := ha y (List.mem_cons_self y ys)
    simp only [List.cons_append, undefsLast, List.dropWhile_cons, hy,
      Bool.not_false, if_true]
    exact ih (fun x hx => ha x (List.mem_cons_of_mem y hx))

theorem undefsLast_split {l : List JItem} (h : undefsLast l = true) :
    ∃ a b, l = a ++ b ∧ (∀ x ∈ a, x.isUndef = false) ∧
      (∀ x ∈ b, x.isUndef = true) := by
  refine ⟨l.takeWhile (fun it => ! it.isUndef),
    l.dropWhile (fun it => ! it.isUndef),
    (List.takeWhile_append_dropWhile _ _).symm, ?_, ?_⟩
  · intro x hx
    have hp := List.mem_takeWhile_imp hx
    simpa using hp
  · exact fun x hx => List.all_eq_true.mp h x hx

theorem undefsLast_sublist {l₁ l₂ : List JItem} (hsub : l₁.Sublist l₂)
    (h : undefsLast l₂ = true) : undefsLast l₁ = true := by
  obtain ⟨a, b, rfl, ha, hb⟩ := undefsLast_split h
  obtain ⟨a2, b2, rfl, ha2, hb2⟩ := List.sublist_append_iff.mp hsub
  exact undefsLast_append a2 b2 (fun x hx => ha x (ha2.subset hx))
    (fun x hx => hb x (hb2.subset hx))

theorem filter_not_isUndef_sortByLikes (l : List JItem) :
    (sortByLikes l).filter (fun it => ! it.isUndef) =
      stableSortDesc likesOf (l.filter (fun it => ! it.isUndef)) := by
  rw [sortByLikes, List.filter_append]
  have h1 : (stableSortDesc likesOf (l.filter (fun it => ! it.isUndef))).filter
      (fun it => ! it.isUndef) =
      stableSortDesc likesOf (l.filter (fun it => ! it.isUndef)) := by
    refine List.filter_eq_self.mpr ?_
    intro a ha
    have ha2 : a ∈ l.filter (fun it => ! it.isUndef) :=
      (perm_stableSortDesc _ _).mem_iff.mp ha
    exact (List.mem_filter.mp ha2).2
  have h2 : (l.filter (fun it => it.isUndef)).filter
      (fun it => ! it.isUndef) = [] := by
    rw [List.filter_eq_nil_iff]
    intro a ha
    have hu := (List.mem_filter.mp ha).2
    simp [hu]
  rw [h1, h2, List.append_nil]

theorem perm_sortByLikes (l : List JItem) : (sortByLikes l).Perm l := by
  rw [sortByLikes]
  have h1 : (stableSortDesc likesOf (l.filter (fun it => ! it.isUndef)) ++
      l.filter (fun it => it.isUndef)).Perm
      (l.filter (fun it => ! it.isUndef) ++ l.filter (fun it => it.isUndef)) :=
    (perm_stableSortDesc _ _).append_right _
  refine h1.trans ?_
  have h2 : l.filter (fun it => it.isUndef) =
      l.filter (fun it => ! ! it.isUndef) := by
    refine List.filter_congr ?_
    intro x _
    rw [Bool.not_not]
  rw [h2]
  exact List.filter_append_perm _ l

theorem undefsLast_sortByLikes (l : List JItem) :
    undefsLast (sortByLikes l) = true := by
  rw [sortByLikes]
  refine undefsLast_append _ _ ?_ ?_
  · intro x hx
    have hx2 : x ∈ l.filter (fun it => ! it.isUndef) :=
      (perm_stableSortDesc _ _).mem_iff.mp hx
    have hp := (List.mem_filter.mp hx2).2
    simpa using hp
  · intro x hx
    exact (List.mem_filter.mp hx).2

theorem likesSorted_sortByLikes (l : List JItem) :
    LikesSorted (sortByLikes l) :=
  ⟨by rw [filter_not_isUndef_sortByLikes]
      exact descSorted_stableSortDesc _ _,
   undefsLast_sortByLikes l⟩

theorem likesSorted_sublist {l₁ l₂ : List JItem} (hsub : l₁.Sublist l₂)
    (h : LikesSorted l₂) : LikesSorted l₁ :=
  ⟨List.Pairwise.sublist (hsub.filter _) h.1, undefsLast_sublist hsub h.2⟩

/-! Facts about column lookup and the object-spread update. -/

theorem lookupCol_cons (hd : String × Column) (tl : Columns) (k : String) :
    lookupCol (hd :: tl) k = if hd.1 = k then some hd.2 else lookupCol tl k := by
  by_cases h : hd.1 = k
  · rw [lookupCol, List.find?_cons_of_pos _ (by simpa using h), if_pos h]
    rfl
  · rw [lookupCol, List.find?_cons_of_neg _ (by simpa using h), if_neg h]
    rfl

theorem lookupCol_isSome_iff {cols : Columns} {k : String} :
    (lookupCol cols k).isSome ↔ k ∈ cols.map Prod.fst := by
  induction cols with
  | nil => simp [lookupCol]
  | cons hd tl ih =>
    rw [lookupCol_cons]
    by_cases h : hd.1 = k
    · simp [h]
    · simp only [if_neg h, ih, List.map_cons, List.mem_cons]
      constructor
      · exact Or.inr
      · rintro (rfl | hm)
        · exact absurd rfl h
        · exact hm

theorem exists_split_of_lookup {cols : Columns} {k : String} {c : Column}
    (h : lookupCol cols k = some c) :
    ∃ l₁ l₂, cols = l₁ ++ (k, c) :: l₂ ∧ ∀ p ∈ l₁, ¬ p.1 = k := by
  induction cols with
  | nil => simp [lookupCol] at h
  | cons hd tl ih =>
    rw [lookupCol_cons] at h
    by_cases hk : hd.1 = k
    · rw [if_pos hk] at h
      refine ⟨[], tl, ?_, by simp⟩
      obtain ⟨k', c'⟩ := hd
      cases hk
      cases h
      rfl
    · rw [if_neg hk] at h
      obtain ⟨l₁, l₂, rfl, hl₁⟩ := ih h
      refine ⟨hd :: l₁, l₂, rfl, ?_⟩
      intro p hp
      rcases List.mem_cons.mp hp with rfl | hp
      · exact hk
      · exact hl₁ p hp

theorem map_setCol_id {l : Columns} {k : String} (v : Column)
    (h : ∀ p ∈ l, ¬ p.1 = k) :
    l.map (fun p => if (p.1 == k) = true then (k, v) else p) = l := by
  induction l with
  | nil => rfl
  | cons hd tl ih =>
    have hhd : ¬ hd.1 = k := h hd (by simp)
    simp only [List.map_cons]
    rw [if_neg (by simpa using hhd), ih (fun p hp => h p (by simp [hp]))]

theorem setCol_split (l₁ l₂ : Columns) (k : String) (c v : Column)
    (h₁ : ∀ p ∈ l₁, ¬ p.1 = k) (h₂ : ∀ p ∈ l₂, ¬ p.1 = k) :
    setCol (l₁ ++ (k, c) :: l₂) k v = l₁ ++ (k, v) :: l₂ := by
  have hany : (l₁ ++ (k, c) :: l₂).any (fun p => p.1 == k) = true := by
    simp
  simp only [setCol, hany, if_true, List.map_append, List.map_cons,
    beq_self_eq_true, if_true]
  rw [map_setCol_id v h₁, map_setCol_id v h₂]

theorem lookup_append_notin {l₁ l₂ : Columns} {k : String}
    (h₁ : ∀ p ∈ l₁, ¬ p.1 = k) :
    lookupCol (l₁ ++ l₂) k = lookupCol l₂ k := by
  induction l₁ with
  | nil => rfl
  | cons hd tl ih =>
    have hhd : ¬ hd.1 = k := h₁ hd (by simp)
    rw [List.cons_append, lookupCol_cons, if_neg hhd]
    exact ih (fun p hp => h₁ p (by simp [hp]))

theorem allItems_append (l₁ l₂ : Columns) :
    allItems (l₁ ++ l₂) = allItems l₁ ++ allItems l₂ := by
  simp [allItems]

theorem keys_of_split_nodup {l₁ l₂ : Columns} {k : String} {c : Column}
    (h : ((l₁ ++ (k, c) :: l₂).map Prod.fst).Nodup) :
    ∀ p ∈ l₂, ¬ p.1 = k := by
  intro p hp hpk
  simp only [List.map_append, List.map_cons, List.nodup_append] at h
  have hk : k ∉ l₂.map Prod.fst := (List.nodup_cons.mp h.2.1).1
  exact hk (List.mem_map.mpr ⟨p, hp, hpk⟩)

/-! Facts about the two splice operations of `moveCard`. -/

theorem perm_spliceInsert (l : List α) (i : Nat) (x : α) :
    (spliceInsert l i x).Perm (x :: l) := by
  have h : (l.take i ++ x :: l.drop i).Perm (x :: (l.take i ++ l.drop i)) :=
    List.perm_middle
  rwa [List.take_append_drop] at h

theorem perm_get_cons_eraseIdx :
    ∀ (l : List JItem) (i : Nat) (h : i < l.length),
      (l.get ⟨i, h⟩ :: l.eraseIdx i).Perm l
  | hd :: tl, 0, _ => by simp
  | hd :: tl, j + 1, h => by
    have hj : j < tl.length := by simpa using h
    simp only [List.get_cons_succ, List.eraseIdx_cons_succ]
    exact ((List.Perm.swap hd (tl.get ⟨j, hj⟩) (tl.eraseIdx j)).trans
      ((perm_get_cons_eraseIdx tl j hj).cons hd))

theorem removeAt_inBounds {l : List JItem} {i : Nat} (h : i < l.length) :
    ((removeAt l i).2 :: (removeAt l i).1).Perm l := by
  simp only [removeAt, dif_pos h]
  exact perm_get_cons_eraseIdx l i h

theorem removeAt_outBounds {l : List JItem} {i : Nat} (h : ¬ i < l.length) :
    removeAt l i = (l, JItem.undef) := by
  simp [removeAt, h]

/-! Record projections and the partition argument used by
`updateCategoryForIds`. -/

/-- Ids of the genuine records of an item list, in order (`undefined`
entries contribute nothing). -/
def recordIds (l : List JItem) : List Int :=
  l.filterMap (fun it => (toRecord it).map (fun r => r.id))

/-- A record with its sentiment field blanked: the identity of a
record apart from the one field `updateCategoryForIds` overwrites. -/
def eraseSentiment : JItem → JItem
  | .undef => .undef
  | .obj r => .obj { r with sentiment := none }

theorem recordIds_append (l₁ l₂ : List JItem) :
    recordIds (l₁ ++ l₂) = recordIds l₁ ++ recordIds l₂ := by
  simp [recordIds]

theorem recordIds_perm {l₁ l₂ : List JItem} (h : l₁.Perm l₂) :
    (recordIds l₁).Perm (recordIds l₂) :=
  h.filterMap _

theorem toRecords_map_obj (recs : List MessageRecord) :
    toRecords (recs.map JItem.obj) = some recs := by
  induction recs with
  | nil => rfl
  | cons r rs ih => simp [toRecords, ih]

theorem toRecords_eq_some {l : List JItem} {recs : List MessageRecord}
    (h : toRecords l = some recs) : l = recs.map JItem.obj := by
  induction l generalizing recs with
  | nil =>
    cases h
    rfl
  | cons hd tl ih =>
    cases hd with
    | undef => simp [toRecords] at h
    | obj r =>
      simp only [toRecords] at h
      cases htl : toRecords tl with
      | none => rw [htl] at h; cases h
      | some rs =>
        rw [htl] at h
        cases h
        simp [ih htl]

theorem toRecords_isSome_of_noUndef {l : List JItem}
    (h : JItem.undef ∉ l) : ∃ recs, toRecords l = some recs := by
  induction l with
  | nil => exact ⟨[], rfl⟩
  | cons hd tl ih =>
    cases hd with
    | undef => exact absurd (by simp) h
    | obj r =>
      obtain ⟨rs, hrs⟩ := ih (fun hm => h (by simp [hm]))
      exact ⟨r :: rs, by simp [toRecords, hrs]⟩

/-- Distributing a list over a duplicate-free covering key list and
re-concatenating in key order permutes the list: the core of the
re-partition done by `updateCategoryForIds`. -/
theorem flatten_filter_perm {K : Type} [DecidableEq K] [BEq K] [LawfulBEq K] :
    ∀ (keys : List K) (l : List β) (f : β → K),
      keys.Nodup → (∀ x ∈ l, f x ∈ keys) →
      ((keys.map (fun k => l.filter (fun x => f x == k))).flatten).Perm l := by
  intro keys
  induction keys with
  | nil =>
    intro l f _ hc
    have : l = [] := List.eq_nil_iff_forall_not_mem.mpr (fun x hx => by
      simpa using hc x hx)
    simp [this]
  | cons k ks ih =>
    intro l f hN hc
    have hkn : k ∉ ks := (List.nodup_cons.mp hN).1
    simp only [List.map_cons, List.flatten_cons]
    have hrest : ∀ k' ∈ ks,
        l.filter (fun x => f x == k') =
        (l.filter (fun x => !(f x == k))).filter (fun x => f x == k') := by
      intro k' hk'
      rw [List.filter_filter]
      refine (List.filter_congr ?_)
      intro x _
      have hkk : ¬ k' = k := fun h => hkn (h ▸ hk')
      by_cases hfx : f x = k'
      · simp [hfx, hkk]
      · simp [hfx]
    have hmap : ks.map (fun k' => l.filter (fun x => f x == k')) =
        ks.map (fun k' => (l.filter (fun x => !(f x == k))).filter
          (fun x => f x == k')) :=
      List.map_congr_left hrest
    rw [hmap]
    have hcover : ∀ x ∈ l.filter (fun x => !(f x == k)), f x ∈ ks := by
      intro x hx
      have hxl := List.mem_filter.mp hx
      have hmem := hc x hxl.1
      rcases List.mem_cons.mp hmem with hfk | hm
      · have hne : ¬ f x = k := by simpa using hxl.2
        exact absurd hfk hne
      · exact hm
    have hperm := ih (l.filter (fun x => !(f x == k))) f (List.nodup_cons.mp hN).2
      hcover
    exact (List.Perm.append_left _ hperm).trans (List.filter_append_perm _ l)

/-! Behaviour of `setCol` under lookups, membership and key maps. -/

theorem allItems_cons (p : String × Column) (tl : Columns) :
    allItems (p :: tl) = p.2.items ++ allItems tl := rfl

theorem lookupCol_setCol_self (cols : Columns) (k : String) (v : Column) :
    lookupCol (setCol cols k v) k = some v := by
  unfold setCol
  by_cases hany : cols.any (fun p => p.1 == k)
  · rw [if_pos hany]
    induction cols with
    | nil => simp at hany
    | cons hd tl ih =>
      rw [List.map_cons]
      by_cases hhd : hd.1 = k
      · have hrep : (if (hd.1 == k) = true then (k, v) else hd) = (k, v) := by
          simp [hhd]
        rw [hrep, lookupCol_cons, if_pos rfl]
      · have hrep : (if (hd.1 == k) = true then (k, v) else hd) = hd := by
          simp [hhd]
        rw [hrep, lookupCol_cons, if_neg hhd]
        exact ih (by simpa [List.any_cons, hhd] using hany)
  · rw [if_neg hany]
    have hno : ∀ p ∈ cols, ¬ p.1 = k := by
      intro p hp hpk
      exact hany (List.any_eq_true.mpr ⟨p, hp, by simpa using hpk⟩)
    rw [lookup_append_notin hno, lookupCol_cons]
    simp

theorem lookupCol_setCol_ne (cols : Columns) (k : String) (v : Column)
    {j : String} (h : ¬ j = k) :
    lookupCol (setCol cols k v) j = lookupCol cols j := by
  unfold setCol
  by_cases hany : cols.any (fun p => p.1 == k)
  · rw [if_pos hany]
    clear hany
    induction cols with
    | nil => rfl
    | cons hd tl ih =>
      rw [List.map_cons]
      by_cases hhd : hd.1 = k
      · have hrep : (if (hd.1 == k) = true then (k, v) else hd) = (k, v) := by
          simp [hhd]
        rw [hrep, lookupCol_cons, lookupCol_cons,
          if_neg (show ¬ (k, v).1 = j from fun hj => h hj.symm),
          if_neg (show ¬ hd.1 = j from fun hj => h (hj.symm.trans hhd))]
        exact ih
      · have hrep : (if (hd.1 == k) = true then (k, v) else hd) = hd := by
          simp [hhd]
        rw [hrep, lookupCol_cons, lookupCol_cons]
        by_cases hj : hd.1 = j
        · rw [if_pos hj, if_pos hj]
        · rw [if_neg hj, if_neg hj]
          exact ih
  · rw [if_neg hany]
    induction cols with
    | nil =>
      rw [List.nil_append, lookupCol_cons,
        if_neg (show ¬ (k, v).1 = j from fun hj => h hj.symm)]
    | cons hd tl ih =>
      rw [List.cons_append, lookupCol_cons, lookupCol_cons]
      by_cases hj : hd.1 = j
      · rw [if_pos hj, if_pos hj]
      · rw [if_neg hj, if_neg hj]
        exact ih (by simp_all [List.any_cons])

theorem mem_setCol {cols : Columns} {k : String} {v : Column} {p : String × Column}
    (hp : p ∈ setCol cols k v) : p = (k, v) ∨ p ∈ cols := by
  unfold setCol at hp
  by_cases hany : cols.any (fun q => q.1 == k)
  · rw [if_pos hany] at hp
    obtain ⟨q, hq, hqe⟩ := List.mem_map.mp hp
    by_cases hqk : q.1 = k
    · left
      rw [← hqe]
      simp [hqk]
    · right
      rw [← hqe]
      simpa [hqk] using hq
  · rw [if_neg hany] at hp
    rcases List.mem_append.mp hp with hm | hm
    · exact Or.inr hm
    · exact Or.inl (by simpa using hm)

theorem keys_setCol_mem (cols : Columns) (k : String) (v : Column)
    (hk : k ∈ cols.map Prod.fst) :
    (setCol cols k v).map Prod.fst = cols.map Prod.fst := by
  have hany : cols.any (fun p => p.1 == k) = true := by
    obtain ⟨p, hp, hpk⟩ := List.mem_map.mp hk
    exact List.any_eq_true.mpr ⟨p, hp, by simpa using hpk⟩
  unfold setCol
  rw [if_pos hany]
  rw [List.map_map]
  refine List.map_congr_left ?_
  intro p _
  by_cases hpk : p.1 = k
  · simp [Function.comp, hpk]
  · simp [Function.comp, hpk]

/-- Replacing the value stored under a present key exchanges exactly
that value's items in the board-wide item bag. -/
theorem allItems_setCol_exchange {cols : Columns} {k : String} {c : Column}
    (v : Column) (hkeys : (cols.map Prod.fst).Nodup)
    (h : lookupCol cols k = some c) :
    (allItems (setCol cols k v) ++ c.items).Perm (allItems cols ++ v.items) := by
  obtain ⟨l₁, l₂, rfl, h₁⟩ := exists_split_of_lookup h
  have h₂ := keys_of_split_nodup hkeys
  rw [setCol_split l₁ l₂ k c v h₁ h₂]
  rw [← Multiset.coe_eq_coe]
  simp only [allItems_append, allItems_cons, ← Multiset.coe_add]
  abel

/-! Facts about `classifyItem` and the success case of
`updateCategoryForIds`. -/

theorem resolveCat_isSome {cols : Columns} (e : ClassEntry)
    (huncat : (lookupCol cols "uncategorized").isSome) :
    (lookupCol cols (resolveCat cols e)).isSome := by
  unfold resolveCat
  by_cases h : (lookupCol cols (match e.category with
      | some c => if c = "" then "uncategorized" else jsToLower c
      | none => "uncategorized")).isSome
  · simp [h]
  · simpa [h] using huncat

theorem classifyItem_target_isSome {cols : Columns}
    (res : Int → Option ClassEntry) (r : MessageRecord)
    (huncat : (lookupCol cols "uncategorized").isSome) :
    (lookupCol cols (classifyItem cols res r).2).isSome := by
  unfold classifyItem
  cases res r.id with
  | none => simpa using huncat
  | some e => simpa using resolveCat_isSome e huncat

theorem classifyItem_id (cols : Columns) (res : Int → Option ClassEntry)
    (r : MessageRecord) : (classifyItem cols res r).1.id = r.id := by
  unfold classifyItem
  cases res r.id <;> rfl

theorem classifyItem_likes (cols : Columns) (res : Int → Option ClassEntry)
    (r : MessageRecord) : (classifyItem cols res r).1.likes = r.likes := by
  unfold classifyItem
  cases res r.id <;> rfl

theorem eraseSentiment_classifyItem (cols : Columns)
    (res : Int → Option ClassEntry) (r : MessageRecord) :
    eraseSentiment (JItem.obj (classifyItem cols res r).1) =
      eraseSentiment (JItem.obj r) := by
  unfold classifyItem
  cases res r.id <;> rfl

/-- Success-case unfolding of `updateCategoryForIds`: with no
`undefined` item and an `uncategorized` column present, the update
succeeds and produces, per column, the classified records targeted at
that column, re-sorted by likes. -/
theorem updateCategoryForIds_eq {cols : Columns} {recs : List MessageRecord}
    (res : Int → Option ClassEntry)
    (hrecs : toRecords (allItems cols) = some recs)
    (huncat : (lookupCol cols "uncategorized").isSome) :
    updateCategoryForIds cols res =
      some (sortAllColumnsByLikes
        (fillColumns cols (recs.map (classifyItem cols res)))) := by
  unfold updateCategoryForIds
  rw [hrecs]
  have hall : (recs.map (classifyItem cols res)).all
      (fun q => (lookupCol cols q.2).isSome) = true := by
    rw [List.all_eq_true]
    intro q hq
    obtain ⟨r, _, rfl⟩ := List.mem_map.mp hq
    simpa using classifyItem_target_isSome res r huncat
  simp only [hall, if_true]

theorem allItems_sortAll_perm (cols : Columns) :
    (allItems (sortAllColumnsByLikes cols)).Perm (allItems cols) := by
  induction cols with
  | nil => exact List.Perm.refl _
  | cons hd tl ih =>
    rw [sortAllColumnsByLikes, List.map_cons, allItems_cons, allItems_cons]
    exact (perm_sortByLikes hd.2.items).append ih

/-- The board-wide item bag produced by a successful
`updateCategoryForIds` is a permutation of the classified records. -/
theorem allItems_fillColumns (cols : Columns)
    (classified : List (MessageRecord × String)) :
    allItems (fillColumns cols classified) =
      (((cols.map Prod.fst).map (fun k =>
        classified.filter (fun q => q.2 == k))).flatten).map
        (fun q => JItem.obj q.1) := by
  rw [fillColumns, allItems, List.map_map, List.map_flatten, List.map_map,
    List.map_map]
  rfl

theorem allItems_update_perm {cols : Columns}
    (classified : List (MessageRecord × String))
    (hkeys : (cols.map Prod.fst).Nodup)
    (htgt : ∀ q ∈ classified, (lookupCol cols q.2).isSome) :
    (allItems (sortAllColumnsByLikes (fillColumns cols classified))).Perm
      (classified.map (fun q => JItem.obj q.1)) := by
  refine (allItems_sortAll_perm _).trans ?_
  rw [allItems_fillColumns]
  refine List.Perm.map _ ?_
  refine flatten_filter_perm (cols.map Prod.fst) _ Prod.snd hkeys ?_
  intro q hq
  rw [← lookupCol_isSome_iff]
  exact htgt q hq

/-! Case characterizations of `moveCard` and preservation of the
record-id bag. -/

theorem moveCard_none (cols : Columns) (src : DropPos) :
    moveCard cols src none = cols := rfl

theorem moveCard_samePos {cols : Columns} {src dstp : DropPos}
    (h : src.droppableId = dstp.droppableId ∧ src.index = dstp.index) :
    moveCard cols src (some dstp) = cols := by
  simp only [moveCard]
  rw [if_pos h]

theorem moveCard_unknown {cols : Columns} {src dstp : DropPos}
    (h : lookupCol cols src.droppableId = none ∨
         lookupCol cols dstp.droppableId = none) :
    moveCard cols src (some dstp) = cols := by
  simp only [moveCard]
  by_cases hsame : src.droppableId = dstp.droppableId ∧ src.index = dstp.index
  · rw [if_pos hsame]
  · rw [if_neg hsame]
    rcases h with h | h
    · rw [h]
    · rw [h]
      cases lookupCol cols src.droppableId <;> rfl

theorem moveCard_found {cols : Columns} {src dstp : DropPos} {sc dc : Column}
    (hno : ¬(src.droppableId = dstp.droppableId ∧ src.index = dstp.index))
    (hsc : lookupCol cols src.droppableId = some sc)
    (hdc : lookupCol cols dstp.droppableId = some dc) :
    moveCard cols src (some dstp) =
      setCol (setCol cols src.droppableId
          { sc with items := (removeAt sc.items src.index).1 })
        dstp.droppableId
        { dc with items := sortByLikes (spliceInsert
            (if src.droppableId = dstp.droppableId
              then (removeAt sc.items src.index).1 else dc.items)
            dstp.index (removeAt sc.items src.index).2) } := by
  simp only [moveCard]
  rw [if_neg hno, hsc, hdc]

theorem recordIds_cons_undef (l : List JItem) :
    recordIds (JItem.undef :: l) = recordIds l := by
  simp [recordIds, List.filterMap_cons, toRecord]

theorem recordIds_removeAt (l : List JItem) (i : Nat) :
    (recordIds ((removeAt l i).2 :: (removeAt l i).1)).Perm (recordIds l) := by
  by_cases h : i < l.length
  · exact recordIds_perm (removeAt_inBounds h)
  · rw [removeAt_outBounds h]
    rw [recordIds_cons_undef]

/-- The record-id bag of an item list, as a multiset. -/
def idBag (l : List JItem) : Multiset Int := (recordIds l : Multiset Int)

theorem idBag_append (l₁ l₂ : List JItem) :
    idBag (l₁ ++ l₂) = idBag l₁ + idBag l₂ := by
  rw [idBag, recordIds_append, ← Multiset.coe_add]
  rfl

theorem idBag_of_perm {l₁ l₂ : List JItem} (h : l₁.Perm l₂) :
    idBag l₁ = idBag l₂ :=
  Multiset.coe_eq_coe.mpr (recordIds_perm h)

theorem idBag_sortByLikes (l : List JItem) : idBag (sortByLikes l) = idBag l :=
  idBag_of_perm (perm_sortByLikes l)

theorem idBag_setCol_exchange {cols : Columns} {k : String} {c : Column}
    (v : Column) (hkeys : (cols.map Prod.fst).Nodup)
    (h : lookupCol cols k = some c) :
    idBag (allItems (setCol cols k v)) + idBag c.items =
      idBag (allItems cols) + idBag v.items := by
  have := idBag_of_perm (allItems_setCol_exchange v hkeys h)
  rwa [idBag_append, idBag_append] at this

theorem idBag_removeAt (l : List JItem) (i : Nat) :
    idBag [(removeAt l i).2] + idBag (removeAt l i).1 = idBag l := by
  have := idBag_of_perm (List.Perm.refl
    ((removeAt l i).2 :: (removeAt l i).1))
  have h2 : idBag ((removeAt l i).2 :: (removeAt l i).1) = idBag l :=
    Multiset.coe_eq_coe.mpr (recordIds_removeAt l i)
  rw [show (removeAt l i).2 :: (removeAt l i).1 =
    [(removeAt l i).2] ++ (removeAt l i).1 from rfl, idBag_append] at h2
  exact h2

theorem idBag_spliceInsert (l : List JItem) (i : Nat) (x : JItem) :
    idBag (spliceInsert l i x) = idBag [x] + idBag l := by
  have h := idBag_of_perm (perm_spliceInsert l i x)
  rw [show x :: l = [x] ++ l from rfl, idBag_append] at h
  exact h

/-- Every `moveCard` call leaves the bag of record ids on the board
unchanged (a successful move relocates one record; an out-of-bounds
index inserts only an `undefined` entry, which carries no id). -/
theorem idBag_moveCard (cols : Columns) (src : DropPos) (dst : Option DropPos)
    (hkeys : (cols.map Prod.fst).Nodup) :
    idBag (allItems (moveCard cols src dst)) = idBag (allItems cols) := by
  cases dst with
  | none => rw [moveCard_none]
  | some dstp =>
    by_cases hsame : src.droppableId = dstp.droppableId ∧ src.index = dstp.index
    · rw [moveCard_samePos hsame]
    · cases hsc : lookupCol cols src.droppableId with
      | none => rw [moveCard_unknown (Or.inl hsc)]
      | some sc =>
        cases hdc : lookupCol cols dstp.droppableId with
        | none => rw [moveCard_unknown (Or.inr hdc)]
        | some dc =>
          rw [moveCard_found hsame hsc hdc]
          set rm := removeAt sc.items src.index with hrmdef
          set sv : Column := { sc with items := rm.1 } with hsvdef
          set base := if src.droppableId = dstp.droppableId then rm.1
            else dc.items with hbasedef
          set dv : Column := { dc with items := sortByLikes (spliceInsert base dstp.index rm.2) } with hdvdef
          set cols₁ := setCol cols src.droppableId sv with hcols₁
          have hsrcMem : src.droppableId ∈ cols.map Prod.fst :=
            lookupCol_isSome_iff.mp (by simp [hsc])
          have hkeys1 : (cols₁.map Prod.fst).Nodup := by
            rw [hcols₁, keys_setCol_mem _ _ _ hsrcMem]
            exact hkeys
          -- the value currently stored under the destination key in cols₁
          set cur : Column := if src.droppableId = dstp.droppableId then sv
            else dc with hcurdef
          have hcur : lookupCol cols₁ dstp.droppableId = some cur := by
            by_cases hsd : src.droppableId = dstp.droppableId
            · rw [hcurdef, if_pos hsd, hcols₁, ← hsd]
              exact lookupCol_setCol_self _ _ _
            · rw [hcurdef, if_neg hsd, hcols₁,
                lookupCol_setCol_ne _ _ _ (fun hh => hsd hh.symm)]
              exact hdc
          have hcurItems : idBag cur.items = idBag base := by
            by_cases hsd : src.droppableId = dstp.droppableId
            · rw [hcurdef, hbasedef, if_pos hsd, if_pos hsd]
            · rw [hcurdef, hbasedef, if_neg hsd, if_neg hsd]
          have e1 : idBag (allItems cols₁) + idBag sc.items =
              idBag (allItems cols) + idBag rm.1 :=
            idBag_setCol_exchange sv hkeys hsc
          have e2 : idBag (allItems (setCol cols₁ dstp.droppableId dv)) +
              idBag cur.items = idBag (allItems cols₁) + idBag dv.items :=
            idBag_setCol_exchange dv hkeys1 hcur
          have hdv : idBag dv.items = idBag [rm.2] + idBag base := by
            rw [hdvdef]
            show idBag (sortByLikes (spliceInsert base dstp.index rm.2)) = _
            rw [idBag_sortByLikes, idBag_spliceInsert]
          have e3 : idBag [rm.2] + idBag rm.1 = idBag sc.items :=
            idBag_removeAt sc.items src.index
          -- cancel the shared `base` bag to isolate the final board's bag
          have hX2 : idBag (allItems (setCol cols₁ dstp.droppableId dv)) =
              idBag (allItems cols₁) + idBag [rm.2] := by
            have h := e2
            rw [hcurItems, hdv] at h
            have h' : idBag (allItems (setCol cols₁ dstp.droppableId dv)) +
                idBag base =
                (idBag (allItems cols₁) + idBag [rm.2]) + idBag base := by
              rw [h]
              abel
            exact add_right_cancel h'
          have hfinal : idBag (allItems (setCol cols₁ dstp.droppableId dv)) +
              idBag sc.items = idBag (allItems cols) + idBag sc.items := by
            rw [hX2, add_assoc, add_comm (idBag [rm.2]) (idBag sc.items),
              ← add_assoc, e1, add_assoc,
              add_comm (idBag rm.1) (idBag [rm.2]), e3]
          exact add_right_cancel hfinal

/-! Characterization of `addMessages` and of a successful
`updateCategoryForIds`, and the id bags they produce. -/

theorem addMessages_nonarray (s : AppState) : addMessages s none = some s := rfl

theorem addMessages_nil (s : AppState) : addMessages s (some []) = some s := rfl

theorem addMessages_found {s : AppState} {msgs : List JItem} {uncat : Column}
    (hne : ¬ msgs = [])
    (hu : lookupCol s.columns "uncategorized" = some uncat) :
    addMessages s (some msgs) = some { s with
      rawData := s.rawData ++ msgs
      rawWrites := s.rawWrites ++ [s.rawData ++ msgs]
      columns := setCol s.columns "uncategorized"
        { uncat with items := sortByLikes (uncat.items ++ msgs) } } := by
  simp only [addMessages]
  rw [if_neg (by simpa using hne), hu]

theorem idBag_addMessages {s s' : AppState} {msgs : List JItem}
    (hkeys : (s.columns.map Prod.fst).Nodup)
    (h : addMessages s (some msgs) = some s') :
    idBag (allItems s'.columns) = idBag (allItems s.columns) + idBag msgs := by
  by_cases hne : msgs = []
  · subst hne
    rw [addMessages_nil] at h
    cases h
    show idBag (allItems s.columns) = idBag (allItems s.columns) + idBag []
    rw [show idBag [] = 0 from rfl, add_zero]
  · cases hu : lookupCol s.columns "uncategorized" with
    | none =>
      rw [addMessages, if_neg (by simpa using hne), hu] at h
      cases h
    | some uncat =>
      rw [addMessages_found hne hu] at h
      cases h
      have e := idBag_setCol_exchange
        { uncat with items := sortByLikes (uncat.items ++ msgs) } hkeys hu
      have e' : idBag (allItems (setCol s.columns "uncategorized"
          { uncat with items := sortByLikes (uncat.items ++ msgs) })) +
          idBag uncat.items =
          (idBag (allItems s.columns) + idBag msgs) + idBag uncat.items := by
        rw [e]
        show _ + idBag (sortByLikes (uncat.items ++ msgs)) = _
        rw [idBag_sortByLikes, idBag_append]
        abel
      exact add_right_cancel e'

theorem updateCategoryForIds_some_elim {cols : Columns}
    {res : Int → Option ClassEntry} {cols' : Columns}
    (h : updateCategoryForIds cols res = some cols') :
    ∃ recs, toRecords (allItems cols) = some recs ∧
      (∀ q ∈ recs.map (classifyItem cols res), (lookupCol cols q.2).isSome) ∧
      cols' = sortAllColumnsByLikes
        (fillColumns cols (recs.map (classifyItem cols res))) := by
  unfold updateCategoryForIds at h
  cases htr : toRecords (allItems cols) with
  | none =>
    rw [htr] at h
    cases h
  | some recs =>
    rw [htr] at h
    have h2 : (if ((recs.map (classifyItem cols res)).all
        (fun q => (lookupCol cols q.2).isSome)) = true then
        some (sortAllColumnsByLikes
          (fillColumns cols (recs.map (classifyItem cols res))))
      else none) = some cols' := h
    by_cases hall : (recs.map (classifyItem cols res)).all
        (fun q => (lookupCol cols q.2).isSome) = true
    · rw [if_pos hall] at h2
      refine ⟨recs, rfl, ?_, (Option.some_inj.mp h2).symm⟩
      intro q hq
      exact List.all_eq_true.mp hall q hq
    · rw [if_neg hall] at h2
      cases h2

theorem recordIds_map_objApp {γ : Type} (g : γ → MessageRecord) (l : List γ) :
    recordIds (l.map (fun x => JItem.obj (g x))) = l.map (fun x => (g x).id) := by
  induction l with
  | nil => rfl
  | cons x xs ih =>
    simp only [List.map_cons, recordIds, List.filterMap_cons] at *
    rw [show toRecord (JItem.obj (g x)) = some (g x) from rfl]
    simp only [Option.map]
    exact congrArg (List.cons (g x).id) ih

theorem recordIds_map_obj (recs : List MessageRecord) :
    recordIds (recs.map JItem.obj) = recs.map (fun r => r.id) :=
  recordIds_map_objApp (fun r => r) recs

theorem recordIds_update_perm {cols : Columns}
    {res : Int → Option ClassEntry} {cols' : Columns}
    (hkeys : (cols.map Prod.fst).Nodup)
    (h : updateCategoryForIds cols res = some cols') :
    (recordIds (allItems cols')).Perm (recordIds (allItems cols)) := by
  obtain ⟨recs, htr, hall, rfl⟩ := updateCategoryForIds_some_elim h
  have hperm := allItems_update_perm (recs.map (classifyItem cols res)) hkeys hall
  refine (recordIds_perm hperm).trans ?_
  rw [toRecords_eq_some htr, recordIds_map_obj, List.map_map]
  rw [show ((fun q : MessageRecord × String => JItem.obj q.1) ∘
      classifyItem cols res) =
      (fun r => JItem.obj ((classifyItem cols res r).1)) from rfl]
  rw [recordIds_map_objApp (fun r => (classifyItem cols res r).1) recs]
  have he : recs.map (fun r => (classifyItem cols res r).1.id) =
      recs.map (fun r => r.id) :=
    List.map_congr_left (fun r _ => by rw [classifyItem_id])
  rw [he]

/-! Concrete fixtures used by witnesses and counterexamples. -/

/-- A record with the given id and like count. -/
def exRec (i likes : Int) : MessageRecord :=
  { id := i, timestamp := "t", text := "x", likes := some likes,
    sentiment := none }

/-- A small well-formed board: record 5 and record 2 sit in `library`. -/
def exCols : Columns :=
  [("uncategorized", ⟨"uncategorized", "Uncategorized", []⟩),
   ("library", ⟨"library", "Library",
      [JItem.obj (exRec 2 7), JItem.obj (exRec 5 3)]⟩),
   ("ai", ⟨"ai", "AI", []⟩)]

/-- A classification mapping covering only id 5. -/
def exRes : Int → Option ClassEntry :=
  fun i => if i = 5 then some ⟨some "AI", some "positive"⟩ else none

/-- A one-record state used to exhibit the ingest duplication. -/
def dupState : AppState :=
  ⟨[("uncategorized", ⟨"uncategorized", "Uncategorized",
      [JItem.obj (exRec 1 5)]⟩)],
   ["uncategorized"], [], []⟩

/-- The state `dupState` reaches after ingesting a second record with
the same id 1. -/
def dupStateAfter : AppState :=
  ⟨[("uncategorized", ⟨"uncategorized", "Uncategorized",
      [JItem.obj (exRec 1 7), JItem.obj (exRec 1 5)]⟩)],
   ["uncategorized"], [JItem.obj (exRec 1 7)], [[JItem.obj (exRec 1 7)]]⟩

/-! Claim theorems. -/

/-- C1: for every board state (well-formed in the data model's sense:
duplicate-free column keys, an `uncategorized` column present, and only
record objects in the item arrays) and every classification mapping,
`applyClassification` (`updateCategoryForIds`) succeeds and preserves
the multiset of records: modulo the sentiment field it overwrites, the
records across all categories after the call are a permutation of the
records across all categories before it — no record created,
duplicated, or dropped. -/
theorem applyClassification_preserves_records
    (cols : Columns) (res : Int → Option ClassEntry)
    (hkeys : (cols.map Prod.fst).Nodup)
    (huncat : (lookupCol cols "uncategorized").isSome)
    (hundef : JItem.undef ∉ allItems cols) :
    ∃ cols', updateCategoryForIds cols res = some cols' ∧
      ((allItems cols').map eraseSentiment).Perm
        ((allItems cols).map eraseSentiment) := by
  obtain ⟨recs, hrecs⟩ := toRecords_isSome_of_noUndef hundef
  refine ⟨_, updateCategoryForIds_eq res hrecs huncat, ?_⟩
  have htgt : ∀ q ∈ recs.map (classifyItem cols res),
      (lookupCol cols q.2).isSome := by
    intro q hq
    obtain ⟨r, _, rfl⟩ := List.mem_map.mp hq
    exact classifyItem_target_isSome res r huncat
  have hperm := allItems_update_perm (recs.map (classifyItem cols res)) hkeys htgt
  refine (hperm.map eraseSentiment).trans ?_
  rw [toRecords_eq_some hrecs]
  rw [List.map_map, List.map_map]
  have he : recs.map ((eraseSentiment ∘ fun q : MessageRecord × String =>
      JItem.obj q.1) ∘ classifyItem cols res) =
      recs.map (eraseSentiment ∘ JItem.obj) :=
    List.map_congr_left (fun r _ => eraseSentiment_classifyItem cols res r)
  rw [List.map_map, he]

/-- Witness for C1 at a concrete board and mapping. -/
theorem applyClassification_preserves_records_witness :
    ∃ cols', updateCategoryForIds exCols exRes = some cols' ∧
      ((allItems cols').map eraseSentiment).Perm
        ((allItems exCols).map eraseSentiment) :=
  applyClassification_preserves_records exCols exRes (by decide) (by decide)
    (by decide)

/-- C2 (amended): with duplicate-free column keys, `move` and
`applyClassification` preserve the uniqueness of record ids on the
board; `ingest` (`addMessages`) preserves it only when the ingested
batch has duplicate-free ids that do not collide with ids already on
the board — `addMessages` performs no deduplication, so without that
freshness condition the invariant is broken (see the counterexample). -/
theorem board_id_uniqueness_amended :
    (∀ (cols : Columns) (src : DropPos) (dst : Option DropPos),
       (cols.map Prod.fst).Nodup → (recordIds (allItems cols)).Nodup →
       (recordIds (allItems (moveCard cols src dst))).Nodup)
  ∧ (∀ (cols : Columns) (res : Int → Option ClassEntry) (cols' : Columns),
       (cols.map Prod.fst).Nodup → updateCategoryForIds cols res = some cols' →
       (recordIds (allItems cols)).Nodup → (recordIds (allItems cols')).Nodup)
  ∧ (∀ (s s' : AppState) (msgs : List JItem),
       (s.columns.map Prod.fst).Nodup → addMessages s (some msgs) = some s' →
       (recordIds (allItems s.columns)).Nodup → (recordIds msgs).Nodup →
       (∀ i ∈ recordIds msgs, i ∉ recordIds (allItems s.columns)) →
       (recordIds (allItems s'.columns)).Nodup) := by
  refine ⟨?_, ?_, ?_⟩
  · intro cols src dst hkeys hids
    have hperm : (recordIds (allItems (moveCard cols src dst))).Perm
        (recordIds (allItems cols)) :=
      Multiset.coe_eq_coe.mp (idBag_moveCard cols src dst hkeys)
    exact hperm.symm.nodup hids
  · intro cols res cols' hkeys hupd hids
    exact (recordIds_update_perm hkeys hupd).symm.nodup hids
  · intro s s' msgs hkeys hadd hids hmsg hdisj
    have hco : (recordIds (allItems s'.columns) : Multiset Int) =
        ((recordIds (allItems s.columns) ++ recordIds msgs : List Int) :
          Multiset Int) :=
      (idBag_addMessages hkeys hadd).trans (Multiset.coe_add _ _)
    have hperm := Multiset.coe_eq_coe.mp hco
    refine hperm.symm.nodup ?_
    exact List.Nodup.append hids hmsg (fun a ha hb => hdisj a hb ha)

/-- Witness for C2's move clause at a concrete board. -/
theorem board_id_uniqueness_amended_witness :
    (recordIds (allItems (moveCard exCols ⟨"library", 0⟩
      (some ⟨"ai", 0⟩)))).Nodup :=
  board_id_uniqueness_amended.1 exCols ⟨"library", 0⟩ (some ⟨"ai", 0⟩)
    (by decide) (by decide)

/-- Counterexample to C2 as stated: from a board satisfying the
uniqueness invariant, ingesting a batch whose record reuses an existing
id yields a state in which id 1 occurs twice in `uncategorized`. -/
theorem board_id_uniqueness_counterexample :
    (recordIds (allItems dupState.columns)).Nodup ∧
    addMessages dupState (some [JItem.obj (exRec 1 7)]) = some dupStateAfter ∧
    ¬ (recordIds (allItems dupStateAfter.columns)).Nodup :=
  ⟨by decide, by decide, by decide⟩

/-- C10: calling `addMessages` with a non-array argument (modelled as
`none`) or an empty array returns before anything happens: columns,
column order, the raw data log and the log of raw-key writes are all
exactly as before. -/
theorem ingest_noop_on_nonarray_or_empty (s : AppState) :
    addMessages s none = some s ∧ addMessages s (some []) = some s :=
  ⟨rfl, rfl⟩

/-- C3 (amended): `moveCard` with an unknown source or destination
category id fails silently and leaves the board unchanged.  An
in-range pair of category ids with an out-of-bounds `sourceIndex`,
however, does change the board: the source column's items are kept
intact (nothing is removed), but the destructured `removed` value is
`undefined`, which is inserted into the destination at the clamped
`destIndex`, after which the destination is re-sorted — and the
re-sort places the `undefined` entry after every defined item, since
`Array.prototype.sort` moves `undefined` elements to the end. -/
theorem move_error_handling_amended :
    (∀ (cols : Columns) (src dstp : DropPos),
       lookupCol cols src.droppableId = none ∨
       lookupCol cols dstp.droppableId = none →
       moveCard cols src (some dstp) = cols)
  ∧ (∀ (cols : Columns) (src dstp : DropPos) (sc dc : Column),
       lookupCol cols src.droppableId = some sc →
       lookupCol cols dstp.droppableId = some dc →
       ¬(src.droppableId = dstp.droppableId ∧ src.index = dstp.index) →
       ¬ src.index < sc.items.length →
       moveCard cols src (some dstp) =
         setCol (setCol cols src.droppableId sc) dstp.droppableId
           { dc with items := sortByLikes (spliceInsert
               (if src.droppableId = dstp.droppableId then sc.items
                else dc.items) dstp.index JItem.undef) })
  ∧ (∀ (cols : Columns) (src dstp : DropPos) (sc dc c' : Column),
       lookupCol cols src.droppableId = some sc →
       lookupCol cols dstp.droppableId = some dc →
       ¬(src.droppableId = dstp.droppableId ∧ src.index = dstp.index) →
       lookupCol (moveCard cols src (some dstp)) dstp.droppableId =
         some c' →
       undefsLast c'.items = true) := by
  refine ⟨?_, ?_, ?_⟩
  · intro cols src dstp h
    exact moveCard_unknown h
  · intro cols src dstp sc dc hsc hdc hno hoob
    rw [moveCard_found hno hsc hdc, removeAt_outBounds hoob]
  · intro cols src dstp sc dc c' hsc hdc hno hc'
    rw [moveCard_found hno hsc hdc, lookupCol_setCol_self] at hc'
    cases hc'
    exact undefsLast_sortByLikes _

/-- Witness for C3's silent-failure clause at a concrete board with an
unknown source category. -/
theorem move_error_handling_amended_witness :
    moveCard exCols ⟨"nope", 0⟩ (some ⟨"ai", 1⟩) = exCols :=
  move_error_handling_amended.1 exCols ⟨"nope", 0⟩ ⟨"ai", 1⟩
    (Or.inl (by decide))

/-- Counterexample to C3 as stated: with both category ids known but
`sourceIndex` out of bounds (the `library` column holds 2 items, index
5 is past the end), the board is not unchanged — the destination
column `ai` gains an `undefined` entry. -/
theorem move_error_handling_counterexample :
    moveCard exCols ⟨"library", 5⟩ (some ⟨"ai", 0⟩) ≠ exCols ∧
    (lookupCol (moveCard exCols ⟨"library", 5⟩ (some ⟨"ai", 0⟩)) "ai").map
      (fun c => c.items) = some [JItem.undef] :=
  ⟨by decide, by decide⟩

/-! Extractor claims: robustness of the sort key, the retention
filter, and the sort/id-reassignment pass. -/

/-- A record whose `likes` field is missing (or non-numeric). -/
def noLikesRec : MessageRecord :=
  { id := 1, timestamp := "", text := "", likes := none, sentiment := none }

/-- Items whose sort key equals `v`: one tie class.  Only elements
the comparator actually keys belong to a tie class — `undefined`
entries bypass the comparator entirely. -/
def likesEq (v : Int) (it : JItem) : Bool :=
  ! it.isUndef && (likesOf it == v)

theorem filter_likesEq_sortByLikes (v : Int) (l : List JItem) :
    (sortByLikes l).filter (likesEq v) = l.filter (likesEq v) := by
  have hhom : ∀ a b, likesEq v a = true → likesEq v b = true →
      likesOf a = likesOf b := by
    intro a b ha hb
    have ha2 : likesOf a = v := eq_of_beq (Bool.and_eq_true_iff.mp ha).2
    have hb2 : likesOf b = v := eq_of_beq (Bool.and_eq_true_iff.mp hb).2
    rw [ha2, hb2]
  rw [sortByLikes, List.filter_append]
  have h2 : (l.filter (fun it => it.isUndef)).filter (likesEq v) = [] := by
    rw [List.filter_eq_nil_iff]
    intro a ha
    have hu := (List.mem_filter.mp ha).2
    simp [likesEq, hu]
  rw [h2, List.append_nil, filter_stableSortDesc (likesEq v) hhom,
    List.filter_filter]
  refine List.filter_congr ?_
  intro x _
  by_cases hx : x.isUndef = true
  · simp [likesEq, hx]
  · simp [likesEq, hx]

/-- The sort the claim describes, written from its words: every
element — an `undefined` entry included — is given the key `likes` if
numeric and 0 otherwise, and the whole array is stably sorted by that
key, descending.  For comparison with the source-derived
`sortByLikes`, whose SortCompare semantics never hands an `undefined`
element to the comparator. -/
def sortByLikesClaimed (items : List JItem) : List JItem :=
  stableSortDesc likesOf items

/-- C9 (amended): for every element the comparator receives, the like
count used is the element's `likes` field when numeric and 0
otherwise — so records with a missing, `null`, or non-numeric `likes`
sort with key 0 — and the sort never fails: it always returns a
permutation of its input whose defined elements are likes-descending
with tie classes kept in their input order.  But an `undefined` item
is never passed to the comparator: `Array.prototype.sort` places it
after all defined elements, as the concrete degenerate input at the
end shows. -/
theorem sort_likes_robustness_amended :
    (∀ r : MessageRecord, likesOf (JItem.obj r) = r.likes.getD 0)
  ∧ (∀ items : List JItem, (sortByLikes items).Perm items ∧
      LikesSorted (sortByLikes items))
  ∧ (∀ (items : List JItem) (v : Int),
      (sortByLikes items).filter (likesEq v) = items.filter (likesEq v))
  ∧ sortByLikes [JItem.undef, JItem.obj noLikesRec, JItem.obj (exRec 2 5)] =
    [JItem.obj (exRec 2 5), JItem.obj noLikesRec, JItem.undef] :=
  ⟨fun _ => rfl,
   fun items => ⟨perm_sortByLikes items, likesSorted_sortByLikes items⟩,
   fun items v => filter_likesEq_sortByLikes v items,
   by decide⟩

/-- Counterexample to C9 as stated: on `[undefined, record with likes
missing]` the claimed key-0 stable sort would keep the `undefined`
entry first (both keys are 0 and a stable sort preserves the order of
ties), but the program returns the record first — SortCompare moves
`undefined` elements to the end without calling the comparator. -/
theorem sort_likes_counterexample :
    sortByLikes [JItem.undef, JItem.obj noLikesRec] =
      [JItem.obj noLikesRec, JItem.undef] ∧
    sortByLikesClaimed [JItem.undef, JItem.obj noLikesRec] =
      [JItem.undef, JItem.obj noLikesRec] ∧
    sortByLikes [JItem.undef, JItem.obj noLikesRec] ≠
      sortByLikesClaimed [JItem.undef, JItem.obj noLikesRec] :=
  ⟨by decide, by decide, by decide⟩

/-- The identity of an extracted message apart from its (reassigned)
id. -/
def coreOf (m : ExtractedMsg) : String × String × Nat :=
  (m.timestamp, m.message, m.likes)

theorem map_reassign_from {β : Type} (g : ExtractedMsg → β)
    (hg : ∀ (n : Nat) (m : ExtractedMsg), g { m with id := n } = g m) :
    ∀ (n : Nat) (l : List ExtractedMsg),
    ((l.enumFrom n).map (fun p => { p.2 with id := p.1 + 1 })).map g =
      l.map g := by
  intro n l
  induction l generalizing n with
  | nil => rfl
  | cons x xs ih =>
    simp only [List.enumFrom_cons, List.map_cons]
    rw [hg, ih]

theorem filter_map_reassign_from (pb : ExtractedMsg → Bool)
    (hp : ∀ (n : Nat) (m : ExtractedMsg), pb { m with id := n } = pb m) :
    ∀ (n : Nat) (l : List ExtractedMsg),
    (((l.enumFrom n).map (fun p => { p.2 with id := p.1 + 1 })).filter
        pb).map coreOf = (l.filter pb).map coreOf := by
  intro n l
  induction l generalizing n with
  | nil => rfl
  | cons x xs ih =>
    simp only [List.enumFrom_cons, List.map_cons, List.filter_cons]
    rw [hp]
    by_cases hx : pb x = true
    · simp only [hx, if_true, List.map_cons]
      rw [ih]
      rfl
    · simp only [hx, if_false]
      exact ih (n + 1)

theorem ids_reassign_from :
    ∀ (n : Nat) (l : List ExtractedMsg),
    ((l.enumFrom n).map (fun p => { p.2 with id := p.1 + 1 })).map
        (fun m => m.id) = List.range' (n + 1) l.length := by
  intro n l
  induction l generalizing n with
  | nil => rfl
  | cons x xs ih =>
    simp only [List.enumFrom_cons, List.map_cons, List.length_cons,
      List.range'_succ]
    rw [ih]

/-- C8: modulo the id reassignment, the extractor returns exactly the
scanned cards for which it is not the case that both the trimmed
message and the trimmed timestamp are empty — a card with only one of
the two empty is retained, as the three concrete one-card inputs at
the end show (both empty: dropped; only timestamp: kept; only
message: kept). -/
theorem extraction_retention :
    (∀ cards : List RawCard,
      (((parseQAMessages cards).messages).map coreOf).Perm
        (((scannedMessages cards).filter
          (fun m => decide (¬(m.message = "" ∧ m.timestamp = "")))).map coreOf))
  ∧ (parseQAMessages [⟨"", "1", ""⟩]).messages = []
  ∧ (parseQAMessages [⟨"t1", "1", ""⟩]).messages.length = 1
  ∧ (parseQAMessages [⟨"", "1", "m"⟩]).messages.length = 1 := by
  refine ⟨?_, by decide, by decide, by decide⟩
  intro cards
  have h1 : ((parseQAMessages cards).messages).map coreOf =
      (rankedMessages cards).map coreOf :=
    map_reassign_from coreOf (fun _ _ => rfl) 0 (rankedMessages cards)
  rw [h1]
  have hperm : ((rankedMessages cards).map coreOf).Perm
      ((retainedMessages cards).map coreOf) :=
    (perm_stableSortDesc _ _).map coreOf
  refine hperm.trans ?_
  have hfe : retainedMessages cards = (scannedMessages cards).filter
      (fun m => decide (¬(m.message = "" ∧ m.timestamp = ""))) := by
    rw [retainedMessages]
    refine List.filter_congr ?_
    intro m _
    by_cases h1 : m.message = "" <;> by_cases h2 : m.timestamp = "" <;>
      simp [h1, h2]
  rw [hfe]

/-- C5: the extractor's output is sorted by likes descending; the
tie-break is stable — for every like count, the output records with
that count are, modulo id, exactly the retained records with that
count in their original DOM order; ids are reassigned to the 1-based
rank positions `1..n`; and the 3-card scenario with likes `[2,10,10]`
and texts `a`,`b`,`c` yields `[b(10), c(10), a(2)]` with ids
`[1,2,3]`. -/
theorem extraction_sort_and_ids :
    (∀ cards : List RawCard,
       ((parseQAMessages cards).messages).Pairwise
         (fun a b => b.likes ≤ a.likes)
     ∧ (∀ v : Nat, (((parseQAMessages cards).messages.filter
          (fun m => m.likes == v)).map coreOf) =
          (((retainedMessages cards).filter (fun m => m.likes == v)).map
            coreOf))
     ∧ ((parseQAMessages cards).messages.map (fun m => m.id)) =
        List.range' 1 (parseQAMessages cards).messages.length)
  ∧ (parseQAMessages
      [⟨"t1", "2", "a"⟩, ⟨"t2", "10", "b"⟩, ⟨"t3", "10", "c"⟩]).messages =
      [⟨1, "t2", "b", 10⟩, ⟨2, "t3", "c", 10⟩, ⟨3, "t1", "a", 2⟩] := by
  refine ⟨?_, by decide⟩
  intro cards
  refine ⟨?_, ?_, ?_⟩
  · have hlikes : ((parseQAMessages cards).messages).map (fun m => m.likes) =
        (rankedMessages cards).map (fun m => m.likes) :=
      map_reassign_from (fun m => m.likes) (fun _ _ => rfl) 0 _
    have hsorted : ((rankedMessages cards).map (fun m => m.likes)).Pairwise
        (fun a b : Nat => b ≤ a) := by
      have hdesc := descSorted_stableSortDesc
        (fun m : ExtractedMsg => (m.likes : Int)) (retainedMessages cards)
      rw [DescSortedBy] at hdesc
      rw [List.pairwise_map]
      refine hdesc.imp ?_
      intro a b hab
      exact_mod_cast hab
    rw [← hlikes, List.pairwise_map] at hsorted
    exact hsorted
  · intro v
    have h1 : (((parseQAMessages cards).messages.filter
        (fun m => m.likes == v)).map coreOf) =
        (((rankedMessages cards).filter (fun m => m.likes == v)).map coreOf) :=
      filter_map_reassign_from (fun m => m.likes == v) (fun _ _ => rfl) 0 _
    rw [h1]
    have h2 : (rankedMessages cards).filter (fun m => m.likes == v) =
        (retainedMessages cards).filter (fun m => m.likes == v) := by
      refine filter_stableSortDesc (fun m => m.likes == v) ?_
        (retainedMessages cards)
      intro a b ha hb
      have ha' : a.likes = v := by simpa using ha
      have hb' : b.likes = v := by simpa using hb
      rw [ha', hb']
    rw [h2]
  · have h := ids_reassign_from 0 (rankedMessages cards)
    have hlen : (parseQAMessages cards).messages.length =
        (rankedMessages cards).length := by
      rw [show (parseQAMessages cards).messages = ((rankedMessages cards).enum.map
        (fun p => { p.2 with id := p.1 + 1 })) from rfl]
      rw [List.length_map]
      exact List.enumFrom_length
    rw [hlen]
    exact h

/-! Loader claim: the lossy migration path. -/

theorem keys_sortAll (cols : Columns) :
    (sortAllColumnsByLikes cols).map Prod.fst = cols.map Prod.fst := by
  rw [sortAllColumnsByLikes, List.map_map]
  exact List.map_congr_left (fun p _ => rfl)

theorem lookupCol_sortAll (cols : Columns) (k : String) :
    lookupCol (sortAllColumnsByLikes cols) k =
      (lookupCol cols k).map sortValue := by
  induction cols with
  | nil => rfl
  | cons hd tl ih =>
    rw [sortAllColumnsByLikes, List.map_cons, lookupCol_cons, lookupCol_cons]
    by_cases hk : hd.1 = k
    · rw [if_pos hk, if_pos hk]
      rfl
    · rw [if_neg hk, if_neg hk]
      simpa [sortAllColumnsByLikes] using ih

theorem lookupCol_mem {cols : Columns} {k : String} {c : Column}
    (h : lookupCol cols k = some c) : (k, c) ∈ cols := by
  rw [lookupCol] at h
  cases hf : cols.find? (fun p => p.1 == k) with
  | none =>
    rw [hf] at h
    cases h
  | some p =>
    rw [hf] at h
    have hp : p.1 = k := by simpa using List.find?_some hf
    have hm := List.mem_of_find?_eq_some hf
    obtain ⟨p1, p2⟩ := p
    cases h
    cases hp
    exact hm

/-- C7: loading a persisted board whose `columns` object has no
`ui_ux` key discards the old category shape: the loaded board has the
default five-category shape and order, its `uncategorized` column
holds exactly the records of every persisted category (re-sorted, so
as a permutation of them), every other column is empty, and the column
order is the default five-category order. -/
theorem load_migration_fallback (pcols : Columns) (po : Option (List String))
    (hs : lookupCol pcols "ui_ux" = none) :
    (loadData (some ⟨some pcols, po⟩)).2 = some initialColumnOrder ∧
    ((loadData (some ⟨some pcols, po⟩)).1.map Prod.fst) = initialColumnOrder ∧
    (∃ c, lookupCol (loadData (some ⟨some pcols, po⟩)).1 "uncategorized" =
        some c ∧ c.items.Perm (allItems pcols)) ∧
    (∀ k c, lookupCol (loadData (some ⟨some pcols, po⟩)).1 k = some c →
       ¬ k = "uncategorized" → c.items = []) := by
  have hred : loadData (some ⟨some pcols, po⟩) =
      (sortAllColumnsByLikes (setCol initialColumns "uncategorized"
        ⟨"uncategorized", "Uncategorized",
          (pcols.map (fun p => p.2.items)).flatten⟩),
       some initialColumnOrder) := by
    show (if (lookupCol pcols "ui_ux").isSome = true then
        (sortAllColumnsByLikes pcols, po)
      else _) = _
    rw [hs]
    rfl
  rw [hred]
  refine ⟨rfl, ?_, ?_, ?_⟩
  · rw [keys_sortAll, keys_setCol_mem _ _ _ (by decide)]
    decide
  · refine ⟨⟨"uncategorized", "Uncategorized",
      sortByLikes ((pcols.map (fun p => p.2.items)).flatten)⟩, ?_, ?_⟩
    · rw [lookupCol_sortAll, lookupCol_setCol_self]
      rfl
    · show (sortByLikes ((pcols.map (fun p => p.2.items)).flatten)).Perm
        (allItems pcols)
      exact perm_sortByLikes _
  · intro k c hc hk
    rw [lookupCol_sortAll, lookupCol_setCol_ne _ _ _ hk] at hc
    cases hl : lookupCol initialColumns k with
    | none =>
      rw [hl] at hc
      cases hc
    | some c0 =>
      rw [hl] at hc
      have hmem := lookupCol_mem hl
      have hempty : c0.items = [] := by
        have hall : ∀ p ∈ initialColumns, p.2.items = [] := by decide
        exact hall (k, c0) hmem
      cases hc
      show sortByLikes c0.items = []
      rw [hempty]
      rfl

/-- An old-shape persisted board (no `ui_ux` key, two custom
categories). -/
def oldCols : Columns :=
  [("todo", ⟨"todo", "Todo", [JItem.obj (exRec 1 2), JItem.obj (exRec 2 9)]⟩),
   ("done", ⟨"done", "Done", [JItem.obj (exRec 3 4)]⟩)]

/-- Witness for C7 at a concrete old-shape persisted board. -/
theorem load_migration_fallback_witness :
    (loadData (some ⟨some oldCols, some ["todo", "done"]⟩)).2 =
        some initialColumnOrder ∧
    ((loadData (some ⟨some oldCols, some ["todo", "done"]⟩)).1.map Prod.fst) =
        initialColumnOrder ∧
    (∃ c, lookupCol (loadData (some ⟨some oldCols, some ["todo", "done"]⟩)).1
        "uncategorized" = some c ∧ c.items.Perm (allItems oldCols)) ∧
    (∀ k c, lookupCol (loadData (some ⟨some oldCols, some ["todo", "done"]⟩)).1
        k = some c → ¬ k = "uncategorized" → c.items = []) :=
  load_migration_fallback oldCols (some ["todo", "done"]) (by decide)

/-! Classification routing of an individual record, including
malformed entries. -/

theorem lookupCol_fillColumns (cols : Columns)
    (classified : List (MessageRecord × String)) (k : String) :
    lookupCol (fillColumns cols classified) k =
      (lookupCol cols k).map (fillValue classified k) := by
  induction cols with
  | nil => rfl
  | cons hd tl ih =>
    rw [fillColumns, List.map_cons, lookupCol_cons, lookupCol_cons]
    by_cases hk : hd.1 = k
    · subst hk
      rw [if_pos rfl, if_pos rfl]
      rfl
    · rw [if_neg hk, if_neg hk]
      simpa [fillColumns] using ih

theorem obj_mem_of_mem_allItems {cols : Columns} {recs : List MessageRecord}
    {r : MessageRecord} (hrecs : toRecords (allItems cols) = some recs)
    (hr : JItem.obj r ∈ allItems cols) : r ∈ recs := by
  rw [toRecords_eq_some hrecs] at hr
  obtain ⟨r2, hr2, he⟩ := List.mem_map.mp hr
  cases he
  exact hr2

/-- C4 (amended): a malformed `resultsById` entry is not treated as
"no classification".  For every record whose id has an entry — well
formed or not — the record's sentiment is overwritten with the entry's
sentiment field (so a missing sentiment clears it to absent rather
than leaving the prior value), and the record lands in the category
resolved from the entry: the lowercased category field when present,
non-empty, and known, and `uncategorized` only otherwise.  It appears
in that resolved category and its id in no other. -/
theorem applyClassification_entry_routing
    (cols : Columns) (res : Int → Option ClassEntry)
    (huncat : (lookupCol cols "uncategorized").isSome)
    (hundef : JItem.undef ∉ allItems cols)
    (hids : (recordIds (allItems cols)).Nodup)
    (r : MessageRecord) (e : ClassEntry)
    (hr : JItem.obj r ∈ allItems cols)
    (he : res r.id = some e) :
    ∃ cols', updateCategoryForIds cols res = some cols' ∧
      (∃ c, lookupCol cols' (resolveCat cols e) = some c ∧
        JItem.obj { r with sentiment := e.sentiment } ∈ c.items) ∧
      (∀ k c, lookupCol cols' k = some c → ¬ k = resolveCat cols e →
        r.id ∉ recordIds c.items) := by
  obtain ⟨recs, hrecs⟩ := toRecords_isSome_of_noUndef hundef
  refine ⟨_, updateCategoryForIds_eq res hrecs huncat, ?_, ?_⟩
  · obtain ⟨ct, hct⟩ := Option.isSome_iff_exists.mp (resolveCat_isSome e huncat)
    refine ⟨sortValue (fillValue (recs.map (classifyItem cols res))
      (resolveCat cols e) ct), ?_, ?_⟩
    · rw [lookupCol_sortAll, lookupCol_fillColumns, hct]
      rfl
    · show JItem.obj { r with sentiment := e.sentiment } ∈
        sortByLikes (((recs.map (classifyItem cols res)).filter
          (fun q => q.2 == resolveCat cols e)).map (fun q => JItem.obj q.1))
      rw [(perm_sortByLikes _).mem_iff]
      refine List.mem_map.mpr ⟨({ r with sentiment := e.sentiment },
        resolveCat cols e), ?_, rfl⟩
      refine List.mem_filter.mpr ⟨?_, by simp⟩
      refine List.mem_map.mpr ⟨r, obj_mem_of_mem_allItems hrecs hr, ?_⟩
      unfold classifyItem
      rw [he]
  · intro k c hc hk hidmem
    rw [lookupCol_sortAll, lookupCol_fillColumns] at hc
    cases hck : lookupCol cols k with
    | none =>
      rw [hck] at hc
      cases hc
    | some ck =>
      rw [hck] at hc
      cases hc
      have hidmem2 : r.id ∈ recordIds (sortByLikes
          (((recs.map (classifyItem cols res)).filter
            (fun q => q.2 == k)).map (fun q => JItem.obj q.1))) := hidmem
      clear hidmem
      rw [(recordIds_perm (perm_sortByLikes _)).mem_iff] at hidmem2
      rw [show (fun q : MessageRecord × String => JItem.obj q.1) =
        (fun q : MessageRecord × String => JItem.obj (Prod.fst q)) from rfl,
        recordIds_map_objApp Prod.fst] at hidmem2
      obtain ⟨q, hq, hqid⟩ := List.mem_map.mp hidmem2
      have hqf := List.mem_filter.mp hq
      obtain ⟨r2, hr2, hq2⟩ := List.mem_map.mp hqf.1
      have hr2id : r2.id = r.id := by
        rw [← hq2] at hqid
        rwa [classifyItem_id] at hqid
      have hrecIds : recordIds (allItems cols) = recs.map (fun x => x.id) := by
        rw [toRecords_eq_some hrecs, recordIds_map_obj]
      rw [hrecIds] at hids
      have hreq : r2 = r :=
        List.inj_on_of_nodup_map hids hr2
          (obj_mem_of_mem_allItems hrecs hr) hr2id
      subst hreq
      have : q.2 = resolveCat cols e := by
        rw [← hq2]
        unfold classifyItem
        rw [he]
      rw [this] at hqf
      exact hk (Eq.symm (by simpa using hqf.2))

/-- A board whose `library` column holds record 5 with a prior
positive sentiment. -/
def malRecBefore : MessageRecord :=
  { id := 5, timestamp := "t", text := "x", likes := some 3,
    sentiment := some "positive" }

/-- Record 5 as `updateCategoryForIds` rewrites it under an entry with
no sentiment field: the prior sentiment is gone. -/
def malRecAfter : MessageRecord :=
  { id := 5, timestamp := "t", text := "x", likes := some 3,
    sentiment := none }

/-- The board holding `malRecBefore` in `library`. -/
def malCols : Columns :=
  [("uncategorized", ⟨"uncategorized", "Uncategorized", []⟩),
   ("library", ⟨"library", "Library", [JItem.obj malRecBefore]⟩),
   ("ai", ⟨"ai", "AI", []⟩)]

/-- A malformed mapping: the entry for id 5 has a category but no
sentiment field. -/
def malRes : Int → Option ClassEntry :=
  fun i => if i = 5 then some ⟨some "AI", none⟩ else none

/-- Counterexample to C4 as stated: under the malformed entry
`{category: "AI"}` (sentiment missing), record 5 is not placed in
`uncategorized` with its sentiment untouched — it is routed to `ai`
and its sentiment is overwritten to absent. -/
theorem applyClassification_malformed_counterexample :
    (lookupCol ((updateCategoryForIds malCols malRes).getD [])
      "uncategorized").map (fun c => c.items) = some [] ∧
    (lookupCol ((updateCategoryForIds malCols malRes).getD [])
      "ai").map (fun c => c.items) = some [JItem.obj malRecAfter] ∧
    malRecBefore.sentiment = some "positive" ∧ malRecAfter.sentiment = none :=
  ⟨by decide, by decide, rfl, rfl⟩

/-- Witness for C4's amended routing at the concrete malformed
entry. -/
theorem applyClassification_entry_routing_witness :
    ∃ cols', updateCategoryForIds malCols malRes = some cols' ∧
      (∃ c, lookupCol cols' (resolveCat malCols ⟨some "AI", none⟩) = some c ∧
        JItem.obj { malRecBefore with sentiment := none } ∈ c.items) ∧
      (∀ k c, lookupCol cols' k = some c →
        ¬ k = resolveCat malCols ⟨some "AI", none⟩ →
        (malRecBefore.id) ∉ recordIds c.items) :=
  applyClassification_entry_routing malCols malRes (by decide) (by decide)
    (by decide) malRecBefore ⟨some "AI", none⟩ (by decide) (by decide)

/-! The re-sort invariant: sortedness and tie stability after each
mutating operation. -/

/-- A whole board's columns are each likes-sorted. -/
def BoardSorted (cols : Columns) : Prop :=
  ∀ p ∈ cols, LikesSorted p.2.items

/-- The ids of the records in one tie class of an item list, in list
order. -/
def tiesIds (v : Int) (l : List JItem) : List Int :=
  recordIds (l.filter (likesEq v))

theorem removeAt_fst_sublist (l : List JItem) (i : Nat) :
    (removeAt l i).1.Sublist l := by
  by_cases h : i < l.length
  · rw [removeAt, dif_pos h]
    exact List.eraseIdx_sublist l i
  · rw [removeAt_outBounds h]

theorem boardSorted_setCol {cols : Columns} {k : String} {v : Column}
    (hs : BoardSorted cols) (hv : LikesSorted v.items) :
    BoardSorted (setCol cols k v) := by
  intro p hp
  rcases mem_setCol hp with rfl | hp
  · exact hv
  · exact hs p hp

/-- Ingest part of the invariant: sortedness of every column plus the
prefix form of tie stability for the only column it touches. -/
theorem ingest_resort_invariant {s s' : AppState} {msgs : List JItem}
    {uncat : Column}
    (hadd : addMessages s (some msgs) = some s')
    (hu : lookupCol s.columns "uncategorized" = some uncat)
    (hs : BoardSorted s.columns) :
    BoardSorted s'.columns ∧
    (∀ v c', lookupCol s'.columns "uncategorized" = some c' →
       ∃ t, c'.items.filter (likesEq v) =
         uncat.items.filter (likesEq v) ++ t) ∧
    (∀ k, ¬ k = "uncategorized" →
       lookupCol s'.columns k = lookupCol s.columns k) := by
  by_cases hne : msgs = []
  · subst hne
    rw [addMessages_nil] at hadd
    cases hadd
    refine ⟨hs, ?_, fun k _ => rfl⟩
    intro v c' hc'
    rw [hu] at hc'
    cases hc'
    exact ⟨[], (List.append_nil _).symm⟩
  · rw [addMessages_found hne hu] at hadd
    cases hadd
    refine ⟨?_, ?_, ?_⟩
    · exact boardSorted_setCol hs (likesSorted_sortByLikes _)
    · intro v c' hc'
      rw [lookupCol_setCol_self] at hc'
      cases hc'
      refine ⟨msgs.filter (likesEq v), ?_⟩
      show (sortByLikes (uncat.items ++ msgs)).filter (likesEq v) = _
      rw [filter_likesEq_sortByLikes, List.filter_append]
    · intro k hk
      exact lookupCol_setCol_ne _ _ _ hk

/-- Move part of the invariant: every column is sorted again. -/
theorem move_resort_sorted (cols : Columns) (src : DropPos)
    (dst : Option DropPos) (hs : BoardSorted cols) :
    BoardSorted (moveCard cols src dst) := by
  cases dst with
  | none =>
    rw [moveCard_none]
    exact hs
  | some dstp =>
    by_cases hsame : src.droppableId = dstp.droppableId ∧ src.index = dstp.index
    · rw [moveCard_samePos hsame]
      exact hs
    · cases hsc : lookupCol cols src.droppableId with
      | none =>
        rw [moveCard_unknown (Or.inl hsc)]
        exact hs
      | some sc =>
        cases hdc : lookupCol cols dstp.droppableId with
        | none =>
          rw [moveCard_unknown (Or.inr hdc)]
          exact hs
        | some dc =>
          rw [moveCard_found hsame hsc hdc]
          have hscSorted : LikesSorted sc.items := hs _ (lookupCol_mem hsc)
          refine boardSorted_setCol (boardSorted_setCol hs ?_)
            (likesSorted_sortByLikes _)
          exact likesSorted_sublist (removeAt_fst_sublist sc.items src.index)
            hscSorted

/-- Move part of the invariant, tie stability: the destination's final
tie classes contain, as an order-preserving subsequence, the ties of
the list the moved element was inserted into (the prior destination
items, or for a same-column move the source items minus the moved
element) — so every record other than the moved one keeps its relative
tie order; the source column (cross-column case) simply loses the
indexed element; all other columns are untouched. -/
theorem move_resort_ties {cols : Columns} {src dstp : DropPos}
    {sc dc : Column}
    (hsc : lookupCol cols src.droppableId = some sc)
    (hdc : lookupCol cols dstp.droppableId = some dc)
    (hno : ¬(src.droppableId = dstp.droppableId ∧ src.index = dstp.index)) :
    (∀ v c', lookupCol (moveCard cols src (some dstp)) dstp.droppableId =
        some c' →
      (((if src.droppableId = dstp.droppableId
          then (removeAt sc.items src.index).1
          else dc.items).filter (likesEq v)).Sublist
        (c'.items.filter (likesEq v)))) ∧
    (¬ src.droppableId = dstp.droppableId →
      lookupCol (moveCard cols src (some dstp)) src.droppableId =
        some { sc with items := (removeAt sc.items src.index).1 }) ∧
    (∀ k, ¬ k = src.droppableId → ¬ k = dstp.droppableId →
      lookupCol (moveCard cols src (some dstp)) k = lookupCol cols k) := by
  rw [moveCard_found hno hsc hdc]
  refine ⟨?_, ?_, ?_⟩
  · intro v c' hc'
    rw [lookupCol_setCol_self] at hc'
    cases hc'
    show (_ : List JItem).filter (likesEq v) |>.Sublist
      ((sortByLikes (spliceInsert _ dstp.index
        (removeAt sc.items src.index).2)).filter (likesEq v))
    rw [filter_likesEq_sortByLikes]
    set base := if src.droppableId = dstp.droppableId
      then (removeAt sc.items src.index).1 else dc.items with hbase
    rw [spliceInsert, List.filter_append]
    have hbaseSplit : base.filter (likesEq v) =
        (base.take dstp.index).filter (likesEq v) ++
        (base.drop dstp.index).filter (likesEq v) := by
      rw [← List.filter_append, List.take_append_drop]
    rw [hbaseSplit]
    refine List.Sublist.append_left ?_ _
    rw [List.filter_cons]
    by_cases hx : likesEq v (removeAt sc.items src.index).2 = true
    · rw [if_pos hx]
      exact List.sublist_cons_self _ _
    · rw [if_neg hx]
  · intro hsd
    rw [lookupCol_setCol_ne _ _ _ hsd, lookupCol_setCol_self]
  · intro k hks hkd
    rw [lookupCol_setCol_ne _ _ _ hkd, lookupCol_setCol_ne _ _ _ hks]

/-- Classification part of the invariant: every column of the result
is sorted. -/
theorem update_resort_sorted {cols cols' : Columns}
    {res : Int → Option ClassEntry}
    (h : updateCategoryForIds cols res = some cols') :
    BoardSorted cols' := by
  obtain ⟨recs, _, _, rfl⟩ := updateCategoryForIds_some_elim h
  intro p hp
  obtain ⟨q, _, rfl⟩ := List.mem_map.mp hp
  exact likesSorted_sortByLikes _

theorem likesEq_classifyItem (v : Int) (cols : Columns)
    (res : Int → Option ClassEntry) (r : MessageRecord) :
    likesEq v (JItem.obj (classifyItem cols res r).1) =
      likesEq v (JItem.obj r) := by
  show ((classifyItem cols res r).1.likes.getD 0 == v) = (r.likes.getD 0 == v)
  rw [classifyItem_likes]

/-- Filtering a conjunction `m && t` over three blocks on which the
mask `m` is constantly false, constantly true, and constantly false
respectively reduces to filtering `t` over the middle block. -/
theorem filter_mask_blocks {α : Type} (A C B : List α) (m t : α → Bool)
    (hA : ∀ a ∈ A, m a = false) (hC : ∀ x ∈ C, m x = true)
    (hB : ∀ b ∈ B, m b = false) :
    (A ++ C ++ B).filter (fun a => m a && t a) = C.filter t := by
  rw [List.append_assoc, List.filter_append, List.filter_append]
  have hAnil : A.filter (fun a => m a && t a) = [] := by
    rw [List.filter_eq_nil_iff]
    intro a ha
    rw [hA a ha]
    simp
  have hBnil : B.filter (fun a => m a && t a) = [] := by
    rw [List.filter_eq_nil_iff]
    intro a ha
    rw [hB a ha]
    simp
  have hCeq : C.filter (fun a => m a && t a) = C.filter t := by
    refine List.filter_congr ?_
    intro x hx
    rw [hC x hx]
    simp
  rw [hAnil, hBnil, hCeq, List.nil_append, List.append_nil]

/-- Classification part of the invariant, tie stability: for every
column, the sequence of ids of the ties (records of one like count)
that sit in that column both before and after the call is unchanged —
records coming from or leaving for other columns interleave, but the
survivors keep their relative order. -/
theorem update_resort_ties {cols cols' : Columns}
    {res : Int → Option ClassEntry}
    (hids : (recordIds (allItems cols)).Nodup)
    (h : updateCategoryForIds cols res = some cols') :
    ∀ (k : String) (c c' : Column), lookupCol cols k = some c →
      lookupCol cols' k = some c' →
      ∀ v, (tiesIds v c'.items).filter
          (fun i => decide (i ∈ recordIds c.items)) =
        (tiesIds v c.items).filter
          (fun i => decide (i ∈ recordIds c'.items)) := by
  obtain ⟨recs, htr, hall, rfl⟩ := updateCategoryForIds_some_elim h
  intro k c c' hc hc' v
  rw [lookupCol_sortAll, lookupCol_fillColumns, hc] at hc'
  have hc'eq : c' = sortValue (fillValue (recs.map (classifyItem cols res)) k c) :=
    (Option.some_inj.mp hc').symm
  subst hc'eq
  -- split the board at key k and decompose the record list into blocks
  obtain ⟨l₁, l₂, hsplit, h₁⟩ := exists_split_of_lookup hc
  have hmap : recs.map JItem.obj = allItems l₁ ++ (c.items ++ allItems l₂) := by
    rw [← toRecords_eq_some htr, hsplit, allItems_append, allItems_cons]
  obtain ⟨rA, rest, hr1, hA, hrest⟩ := List.map_eq_append_iff.mp hmap
  obtain ⟨rC, rB, hr2, hC, hB⟩ := List.map_eq_append_iff.mp hrest
  have hrecsEq : recs = rA ++ (rC ++ rB) := by rw [hr1, hr2]
  have hidsAll : recordIds (allItems cols) = recs.map (fun x => x.id) := by
    rw [toRecords_eq_some htr, recordIds_map_obj]
  have hcIds : recordIds c.items = rC.map (fun x => x.id) := by
    rw [← hC, recordIds_map_obj]
  have hNod : ((rA ++ rC ++ rB).map (fun x => x.id)).Nodup := by
    rw [List.append_assoc, ← hrecsEq, ← hidsAll]
    exact hids
  have hNodRecs : (recs.map (fun x => x.id)).Nodup := by
    rw [← hidsAll]
    exact hids
  rw [List.map_append, List.map_append, List.nodup_append,
    List.nodup_append] at hNod
  have hdisjA : ∀ a ∈ rA, (a.id ∈ rC.map (fun x => x.id)) = False := by
    intro a ha
    simp only [eq_iff_iff, iff_false]
    intro hmem
    exact hNod.1.2.2 (List.mem_map.mpr ⟨a, ha, rfl⟩) hmem
  have hdisjB : ∀ b ∈ rB, (b.id ∈ rC.map (fun x => x.id)) = False := by
    intro b hb
    simp only [eq_iff_iff, iff_false]
    intro hmem
    exact hNod.2.2 (List.mem_append_right _ hmem) (List.mem_map.mpr ⟨b, hb, rfl⟩)
  -- the record with a given id in the middle block is unique on the board
  have hinj := List.inj_on_of_nodup_map hNodRecs
  -- normalize the left-hand side
  have hLeft : (tiesIds v (sortValue (fillValue
      (recs.map (classifyItem cols res)) k c)).items).filter
      (fun i => decide (i ∈ recordIds c.items)) =
      (rC.filter (fun x => likesEq v (JItem.obj x) &&
        ((classifyItem cols res x).2 == k))).map (fun x => x.id) := by
    show (recordIds ((sortByLikes (((recs.map (classifyItem cols res)).filter
      (fun q => q.2 == k)).map (fun q => JItem.obj q.1))).filter
        (likesEq v))).filter (fun i => decide (i ∈ recordIds c.items)) = _
    rw [filter_likesEq_sortByLikes, List.filter_map,
      recordIds_map_objApp Prod.fst, List.filter_map, List.filter_filter,
      List.filter_filter]
    have hblocks : recs.map (classifyItem cols res) =
        rA.map (classifyItem cols res) ++ rC.map (classifyItem cols res) ++
        rB.map (classifyItem cols res) := by
      rw [hrecsEq, List.map_append, List.map_append, List.append_assoc]
    rw [hblocks]
    have hassoc : (rA.map (classifyItem cols res) ++
        rC.map (classifyItem cols res) ++
        rB.map (classifyItem cols res)).filter (fun a =>
        ((fun i => decide (i ∈ recordIds c.items)) ∘ fun x => x.1.id) a &&
          (likesEq v ∘ fun q => JItem.obj q.1) a && a.2 == k) =
        (rA.map (classifyItem cols res) ++ rC.map (classifyItem cols res) ++
          rB.map (classifyItem cols res)).filter (fun a =>
          decide (a.1.id ∈ recordIds c.items) &&
            (likesEq v (JItem.obj a.1) && (a.2 == k))) := by
      refine List.filter_congr ?_
      intro a _
      simp [Function.comp, Bool.and_assoc]
    rw [hassoc]
    rw [filter_mask_blocks (rA.map (classifyItem cols res))
      (rC.map (classifyItem cols res)) (rB.map (classifyItem cols res))
      (fun q => decide (q.1.id ∈ recordIds c.items))
      (fun q => likesEq v (JItem.obj q.1) && (q.2 == k)) ?_ ?_ ?_]
    · rw [List.filter_map, List.map_map]
      have hfc : rC.filter ((fun q : MessageRecord × String =>
          likesEq v (JItem.obj q.1) && (q.2 == k)) ∘ classifyItem cols res) =
          rC.filter (fun x => likesEq v (JItem.obj x) &&
            ((classifyItem cols res x).2 == k)) := by
        refine List.filter_congr ?_
        intro x _
        simp only [Function.comp]
        rw [likesEq_classifyItem]
      rw [hfc]
      refine List.map_congr_left ?_
      intro x _
      simp only [Function.comp]
      rw [classifyItem_id]
    · intro q hq
      obtain ⟨a, ha, rfl⟩ := List.mem_map.mp hq
      simp only [classifyItem_id, hcIds]
      simp [hdisjA a ha]
    · intro q hq
      obtain ⟨x, hx, rfl⟩ := List.mem_map.mp hq
      simp only [classifyItem_id, hcIds]
      simp [List.mem_map.mpr ⟨x, hx, rfl⟩]
    · intro q hq
      obtain ⟨b, hb, rfl⟩ := List.mem_map.mp hq
      simp only [classifyItem_id, hcIds]
      simp [hdisjB b hb]
  -- characterize membership in the column after the call
  have hmemAfter : ∀ x ∈ rC, (decide (x.id ∈ recordIds (sortValue (fillValue
      (recs.map (classifyItem cols res)) k c)).items) : Bool) =
      ((classifyItem cols res x).2 == k) := by
    intro x hx
    have hxrecs : x ∈ recs := by
      rw [hrecsEq]
      exact List.mem_append_right _ (List.mem_append_left _ hx)
    have hiff : (x.id ∈ recordIds (sortValue (fillValue
        (recs.map (classifyItem cols res)) k c)).items) ↔
        (classifyItem cols res x).2 = k := by
      constructor
      · intro hmem
        have hmem2 : x.id ∈ recordIds (((recs.map (classifyItem cols res)).filter
            (fun q => q.2 == k)).map (fun q => JItem.obj q.1)) :=
          ((recordIds_perm (perm_sortByLikes _)).mem_iff).mp hmem
        rw [recordIds_map_objApp Prod.fst] at hmem2
        obtain ⟨q, hq, hqid⟩ := List.mem_map.mp hmem2
        have hqf := List.mem_filter.mp hq
        obtain ⟨y, hyrecs, hyq⟩ := List.mem_map.mp hqf.1
        have hyid : y.id = x.id := by
          rw [← hyq] at hqid
          rwa [classifyItem_id] at hqid
        have hyx : y = x := hinj hyrecs hxrecs hyid
        subst hyx
        rw [← hyq] at hqf
        simpa using hqf.2
      · intro htg
        have hgoal : x.id ∈ recordIds (((recs.map (classifyItem cols res)).filter
            (fun q => q.2 == k)).map (fun q => JItem.obj q.1)) := by
          rw [recordIds_map_objApp Prod.fst]
          refine List.mem_map.mpr ⟨classifyItem cols res x, ?_, ?_⟩
          · refine List.mem_filter.mpr ⟨List.mem_map.mpr ⟨x, hxrecs, rfl⟩, ?_⟩
            simp [htg]
          · rw [classifyItem_id]
        exact ((recordIds_perm (perm_sortByLikes _)).mem_iff).mpr hgoal
    by_cases htg : (classifyItem cols res x).2 = k
    · simp [hiff, htg]
    · simp [hiff, htg]
  rw [hLeft]
  show _ = (recordIds (c.items.filter (likesEq v))).filter
      (fun i => decide (i ∈ recordIds (sortValue (fillValue
        (recs.map (classifyItem cols res)) k c)).items))
  rw [← hC, List.filter_map, recordIds_map_obj, List.filter_map,
    List.filter_filter]
  refine congrArg (List.map (fun x : MessageRecord => x.id)) ?_
  refine (List.filter_congr ?_).symm
  intro x hx
  simp only [Function.comp]
  rw [hmemAfter x hx, Bool.and_comm]

/-- C6 (amended): starting from a board whose columns are all sorted
by likes, each single application of ingest, move, or
applyClassification leaves every category's items (not only the
directly affected ones) sorted by likes descending again.  Ties keep
their prior relative order with one exception, exhibited by the
counterexample: a move may reposition the moved record itself among
records of equal likes — its `destIndex` breaks the tie before the
re-sort.  Precisely: for ingest, every column stays sorted, the old
`uncategorized` ties stay a prefix of the new ones, and other columns
are untouched; for move, every column stays sorted, the ties of the
list the moved element was inserted into (every destination record
except the moved one) survive in order, the cross-column source merely
loses the removed element, and other columns are untouched; for
applyClassification every column is sorted, and per column the id
sequence of the ties present both before and after the call is
unchanged. -/
theorem resort_invariant_amended :
    (∀ (s s' : AppState) (msgs : List JItem) (uncat : Column),
       addMessages s (some msgs) = some s' →
       lookupCol s.columns "uncategorized" = some uncat →
       BoardSorted s.columns →
       BoardSorted s'.columns ∧
       (∀ v c', lookupCol s'.columns "uncategorized" = some c' →
          ∃ t, c'.items.filter (likesEq v) =
            uncat.items.filter (likesEq v) ++ t) ∧
       (∀ k, ¬ k = "uncategorized" →
          lookupCol s'.columns k = lookupCol s.columns k))
  ∧ (∀ (cols : Columns) (src : DropPos) (dst : Option DropPos),
       BoardSorted cols → BoardSorted (moveCard cols src dst))
  ∧ (∀ (cols : Columns) (src dstp : DropPos) (sc dc : Column),
       lookupCol cols src.droppableId = some sc →
       lookupCol cols dstp.droppableId = some dc →
       ¬(src.droppableId = dstp.droppableId ∧ src.index = dstp.index) →
       (∀ v c', lookupCol (moveCard cols src (some dstp))
           dstp.droppableId = some c' →
         (((if src.droppableId = dstp.droppableId
             then (removeAt sc.items src.index).1
             else dc.items).filter (likesEq v)).Sublist
           (c'.items.filter (likesEq v)))) ∧
       (¬ src.droppableId = dstp.droppableId →
         lookupCol (moveCard cols src (some dstp)) src.droppableId =
           some { sc with items := (removeAt sc.items src.index).1 }) ∧
       (∀ k, ¬ k = src.droppableId → ¬ k = dstp.droppableId →
         lookupCol (moveCard cols src (some dstp)) k = lookupCol cols k))
  ∧ (∀ (cols cols' : Columns) (res : Int → Option ClassEntry),
       updateCategoryForIds cols res = some cols' → BoardSorted cols')
  ∧ (∀ (cols cols' : Columns) (res : Int → Option ClassEntry),
       (recordIds (allItems cols)).Nodup →
       updateCategoryForIds cols res = some cols' →
       ∀ (k : String) (c c' : Column), lookupCol cols k = some c →
         lookupCol cols' k = some c' →
         ∀ v, (tiesIds v c'.items).filter
             (fun i => decide (i ∈ recordIds c.items)) =
           (tiesIds v c.items).filter
             (fun i => decide (i ∈ recordIds c'.items))) :=
  ⟨fun _ _ _ _ hadd hu hs => ingest_resort_invariant hadd hu hs,
   fun _ _ _ hs => move_resort_sorted _ _ _ hs,
   fun _ _ _ _ _ hsc hdc hno => move_resort_ties hsc hdc hno,
   fun _ _ _ h => update_resort_sorted h,
   fun _ _ _ hids h => update_resort_ties hids h⟩

instance (l : List JItem) : Decidable (LikesSorted l) :=
  @instDecidableAnd _ _ (List.instDecidablePairwise _)
    (instDecidableEqBool _ _)

instance (cols : Columns) : Decidable (BoardSorted cols) :=
  List.decidableBAll _ cols

/-- Witness for C6's move clause at a concrete sorted board. -/
theorem resort_invariant_amended_witness :
    BoardSorted (moveCard exCols ⟨"library", 0⟩ (some ⟨"ai", 0⟩)) :=
  resort_invariant_amended.2.1 exCols ⟨"library", 0⟩ (some ⟨"ai", 0⟩)
    (by decide)

/-- A sorted one-column board with two tied records, in id order. -/
def tieCols : Columns :=
  [("uncategorized", ⟨"uncategorized", "Uncategorized",
      [JItem.obj (exRec 1 5), JItem.obj (exRec 2 5)]⟩)]

/-- Counterexample to C6 as stated: a same-column move of a tied card
(likes 5 and 5) from index 0 to index 1 starts from a fully sorted
board and ends sorted, but the two tied records have swapped relative
order — ties do not keep their prior relative order under move. -/
theorem resort_invariant_counterexample :
    BoardSorted tieCols ∧
    (lookupCol tieCols "uncategorized").map (fun c => recordIds c.items) =
      some [1, 2] ∧
    (∀ it ∈ allItems tieCols, likesOf it = 5) ∧
    (lookupCol (moveCard tieCols ⟨"uncategorized", 0⟩
        (some ⟨"uncategorized", 1⟩)) "uncategorized").map
      (fun c => recordIds c.items) = some [2, 1] :=
  ⟨by decide, by decide, by decide, by decide⟩

end ParseVevox
